import Mathlib

/-!
Verification development for the walk.io image-to-disk pipeline.

Strings are modelled as their character sequences (`String.data`); Go's
`path` / `path/filepath` functions (`Clean`, `Join`, `Split`, `Dir`,
`Base`, `Ext`), `strings` helpers (`HasPrefix`, `TrimPrefix`,
`TrimSpace`, `ReplaceAll`) and `strconv` parsing are re-implemented
over `List Char` following the Go standard-library algorithms, so that
every definition is executable and kernel-reducible.  The host
filesystem is modelled as an association list from (cleaned) path
strings to nodes; `os.RemoveAll`, `os.MkdirAll`, file creation and
rename are the corresponding list operations.
-/

set_option maxHeartbeats 1000000
set_option autoImplicit false

abbrev CL := List Char

/-- Model of Go strings.Split on a single separator character
(specialised; `splitOnChar sep s` never returns an empty list). -/
def splitOnChar (sep : Char) : CL → List CL
  | [] => [[]]
  | c :: rest =>
    let r := splitOnChar sep rest
    if c = sep then [] :: r
    else
      match r with
      | [] => [[c]]
      | h :: t => (c :: h) :: t

/-- Inverse of splitting: interleave a separator between the parts
(Go strings.Join with a one-character separator). -/
def joinWith (sep : Char) : List CL → CL
  | [] => []
  | [x] => x
  | x :: y :: ys => x ++ sep :: joinWith sep (y :: ys)

/-- Model of Go strings.HasPrefix on character sequences. -/
def clStartsWith : CL → CL → Bool
  | [], _ => true
  | _ :: _, [] => false
  | p :: ps, c :: cs => p = c && clStartsWith ps cs

/-- One step of the lexical cleaning loop of Go path.Clean /
filepath.Clean: drop a `..` against a previous real component, keep
leading `..` on relative paths, drop `..` at the root. -/
def cleanStep (rooted : Bool) (acc : List CL) (c : CL) : List CL :=
  if c = ['.', '.'] then
    if acc ≠ [] ∧ acc.getLast? ≠ some ['.', '.'] then acc.dropLast
    else if rooted then acc
    else acc ++ [c]
  else acc ++ [c]

/-- Model of Go path.Clean / filepath.Clean (Unix separators) at the
component level: drop empty and `.` components, resolve `..`
lexically, re-render. -/
def goCleanCL (s : CL) : CL :=
  match s with
  | [] => ['.']
  | c0 :: _ =>
    let rooted := c0 = '/'
    let comps := (splitOnChar '/' s).filter (fun c => c ≠ [] ∧ c ≠ ['.'])
    let out := comps.foldl (cleanStep rooted) []
    if rooted then '/' :: joinWith '/' out
    else
      match out with
      | [] => ['.']
      | _ => joinWith '/' out

/-- Go path.Clean / filepath.Clean on strings. -/
def goClean (s : String) : String := ⟨goCleanCL s.data⟩

/-- Model of Go path.Join / filepath.Join: drop empty elements, join
with a slash, then Clean; all elements empty gives the empty string. -/
def goJoinList (elems : List String) : String :=
  let l := (elems.map String.data).filter (fun d => d ≠ [])
  match l with
  | [] => ""
  | _ => ⟨goCleanCL (joinWith '/' l)⟩

/-- Two-argument Go path.Join. -/
def pathJoin2 (a b : String) : String := goJoinList [a, b]

/-- Model of Go path.Split / filepath.Split: split after the final
slash; the directory part keeps its trailing slash. -/
def splitLastSlash (s : CL) : CL × CL :=
  ((s.reverse.dropWhile (fun c => c ≠ '/')).reverse,
   (s.reverse.takeWhile (fun c => c ≠ '/')).reverse)

/-- Go path.Split on strings, returning (dir, file). -/
def goSplitDirFile (s : String) : String × String :=
  let p := splitLastSlash s.data
  (⟨p.1⟩, ⟨p.2⟩)

/-- Model of Go path.Dir: Clean of the directory part of Split. -/
def pathDir (s : String) : String := goClean ⟨(splitLastSlash s.data).1⟩

/-- Model of Go strings.TrimPrefix. -/
def strTrimPre (pre s : String) : String :=
  if clStartsWith pre.data s.data then ⟨s.data.drop pre.data.length⟩ else s

/-- Model of Go strings.HasPrefix on strings. -/
def strHasPre (pre s : String) : Bool := clStartsWith pre.data s.data

/-- Model of Go path.Base: strip trailing slashes and keep the part
after the last remaining slash. -/
def pathBase (s : String) : String :=
  if s.data = [] then "."
  else
    let t := s.data.reverse.dropWhile (fun c => c = '/')
    if t = [] then "/"
    else ⟨(t.takeWhile (fun c => c ≠ '/')).reverse⟩

/-- Helper for path.Ext: scan the reversed character list; stop at a
slash, return the extension once a dot is found. -/
def pathExtAux : CL → CL → CL
  | _, [] => []
  | acc, c :: rest =>
    if c = '/' then []
    else if c = '.' then c :: acc
    else pathExtAux (c :: acc) rest

/-- Model of Go path.Ext: the suffix of the final component starting at
its final dot, or the empty string. -/
def pathExt (s : String) : String := ⟨pathExtAux [] s.data.reverse⟩

/-- Fuel-driven core of strings.ReplaceAll: replace non-overlapping
occurrences of a non-empty pattern left to right. -/
def replaceAllAux (old new : CL) : Nat → CL → CL
  | 0, s => s
  | _ + 1, [] => []
  | fuel + 1, c :: rest =>
    if clStartsWith old (c :: rest) then
      new ++ replaceAllAux old new fuel ((c :: rest).drop old.length)
    else
      c :: replaceAllAux old new fuel rest

/-- Model of Go strings.ReplaceAll (with replacement of an empty
pattern inserting the replacement around every character, as in Go). -/
def strReplaceAll (s old new : String) : String :=
  match old.data with
  | [] => ⟨new.data ++ (s.data.map (fun c => c :: new.data)).flatten⟩
  | _ :: _ => ⟨replaceAllAux old.data new.data (s.data.length + 1) s.data⟩

/-- ASCII whitespace test used by Go strings.TrimSpace (the Unicode
cases do not occur in the inputs considered here). -/
def isSpaceChar (c : Char) : Bool :=
  c = ' ' || c = '\t' || c = '\n' || c = '\x0b' || c = '\x0c' || c = '\r'

/-- Model of Go strings.TrimSpace. -/
def trimGo (s : String) : String :=
  ⟨((s.data.dropWhile isSpaceChar).reverse.dropWhile isSpaceChar).reverse⟩

/-! ## Host filesystem model

The filesystem is an association list from full path strings to nodes.
Paths written by the modelled code always come out of `goJoinList`,
hence are cleaned. -/

/-- A filesystem node: directory (mode), regular file (mode, content)
or symbolic link (target string, stored verbatim). -/
inductive FNode where
  | dir : Nat → FNode
  | file : Nat → String → FNode
  | symlink : String → FNode
deriving DecidableEq, Repr

abbrev FS := List (String × FNode)

/-- First binding of a path in the association list. -/
def fsLookup (fs : FS) (p : String) : Option FNode :=
  match fs with
  | [] => none
  | (q, n) :: rest => if q = p then some n else fsLookup rest p

/-- Replace the binding of a path, or add it. -/
def fsInsert (fs : FS) (p : String) (n : FNode) : FS :=
  match fs with
  | [] => [(p, n)]
  | (q, m) :: rest => if q = p then (p, n) :: rest else (q, m) :: fsInsert rest p n

/-- Remove the exact binding of a path (model of os.Remove on a
single entry; errors are ignored by the callers modelled here). -/
def fsRemoveExact (fs : FS) (p : String) : FS :=
  fs.filter (fun e => e.1 ≠ p)

/-- True when `p` lies strictly below directory `root`, lexically. -/
def isStrictlyUnder (root p : String) : Bool :=
  clStartsWith (root.data ++ ['/']) p.data

/-- True when `p` is `root` itself or lies strictly below it. -/
def atOrUnder (root p : String) : Bool :=
  root = p || isStrictlyUnder root p

/-- Model of os.RemoveAll: drop the node at `p` and every node below
it. -/
def removeAllFS (p : String) (fs : FS) : FS :=
  fs.filter (fun e => ¬ atOrUnder p e.1)

/-- Create each of the listed directories, in order, when absent. -/
def ensureDirs (keys : List String) (mode : Nat) (fs : FS) : FS :=
  keys.foldl (fun acc a => if fsLookup acc a = none then fsInsert acc a (.dir mode) else acc) fs

/-- Render a component list back to a path string. -/
def renderPath (rooted : Bool) (cs : List CL) : String :=
  if rooted then ⟨'/' :: joinWith '/' cs⟩ else ⟨joinWith '/' cs⟩

/-- The chain of ancestor paths of a component list, shortest first,
ending in the full path. -/
def ancPaths (rooted : Bool) (cs : List CL) : List String :=
  (List.range cs.length).map (fun i => renderPath rooted (cs.take (i + 1)))

/-- Model of os.MkdirAll: create every missing directory on the path,
with the given mode; existing nodes are left untouched. -/
def mkdirAllFS (p : String) (mode : Nat) (fs : FS) : FS :=
  match p.data with
  | [] => fs
  | c :: rest =>
    if c = '/' then ensureDirs (ancPaths true (splitOnChar '/' rest)) mode fs
    else ensureDirs (ancPaths false (splitOnChar '/' (c :: rest))) mode fs

/-- Model of os.OpenFile with O_CREATE, O_WRONLY and O_TRUNC followed by
a full write: an existing regular file keeps its mode and is
truncated to the new content; otherwise a file is created with the
given mode. -/
def createOrTruncate (p : String) (mode : Nat) (content : String) (fs : FS) : FS :=
  match fsLookup fs p with
  | some (.file m _) => fsInsert fs p (.file m content)
  | _ => fsInsert fs p (.file mode content)

/-! ## Layer flattener (src/pkg/fs/ext4Device.go, LayerFlattener) -/

/-- isWhiteout from src/pkg/fs/ext4Device.go: the basename of the
cleaned entry name starts with the whiteout marker. -/
def isWhiteout (name : String) : Bool :=
  strHasPre ".wh." (goSplitDirFile (goClean name)).2

/-- handleWhiteout from src/pkg/fs/ext4Device.go: split the cleaned
whiteout path, strip the marker; an opaque whiteout removes the
directory and recreates it with mode 0755, a regular whiteout
recursively removes the named entry.  No containment check is
performed. -/
def handleWhiteoutFS (targetDir whiteoutPath : String) (fs : FS) : FS :=
  let p := goSplitDirFile (goClean whiteoutPath)
  let actualName := strTrimPre ".wh." p.2
  if actualName = ".wh..opaque" then
    let opaqueDir := goJoinList [targetDir, p.1]
    mkdirAllFS opaqueDir 0o755 (removeAllFS opaqueDir fs)
  else
    removeAllFS (goJoinList [targetDir, p.1, actualName]) fs

/-- Tar entry type flags handled by extractTarEntry. -/
inductive TarType where
  | dir | reg | symlink | link | chr | blk | fifo | other
deriving DecidableEq, Repr

/-- The fields of a tar header used by the flattener; `content` stands
for the header.Size bytes copied for a regular file. -/
structure TarHeader where
  name : String
  typeflag : TarType
  mode : Nat
  linkname : String
  content : String
deriving DecidableEq, Repr

/-- The path-traversal error produced by extractTarEntry. -/
def travMsg (name : String) : String := "path traversal detected: " ++ name

/-- extractTarEntry from src/pkg/fs/ext4Device.go: join the cleaned
entry name onto the target directory, reject when the result does not
have the target directory as a string prefix, then apply the entry by
type (directories via MkdirAll, regular files via create/truncate,
symlinks verbatim, hard links with an empty-file fallback when the
link target escapes, special and unknown entries skipped). -/
def extractTarEntryFS (targetDir : String) (hdr : TarHeader) (fs : FS) : Except String FS :=
  let targetPath := goJoinList [targetDir, goClean hdr.name]
  if strHasPre targetDir targetPath = false then .error (travMsg hdr.name)
  else
    match hdr.typeflag with
    | .dir => .ok (mkdirAllFS targetPath hdr.mode fs)
    | .reg =>
      .ok (createOrTruncate targetPath hdr.mode hdr.content (mkdirAllFS (pathDir targetPath) 0o755 fs))
    | .symlink => .ok (fsInsert (fsRemoveExact fs targetPath) targetPath (.symlink hdr.linkname))
    | .link =>
      let linkTarget := goJoinList [targetDir, goClean hdr.linkname]
      if strHasPre targetDir linkTarget = false then
        .ok (fsInsert (mkdirAllFS (pathDir targetPath) 0o755 fs) targetPath (.file 0o666 ""))
      else
        match fsLookup fs linkTarget with
        | some n => .ok (fsInsert fs targetPath n)
        | none => .error ("create hardlink: " ++ hdr.linkname)
    | .chr => .ok fs
    | .blk => .ok fs
    | .fifo => .ok fs
    | .other => .ok fs

/-- The per-entry dispatch of extractLayer: whiteout markers go to
handleWhiteout, everything else to extractTarEntry. -/
def processEntry (targetDir : String) (hdr : TarHeader) (fs : FS) : Except String FS :=
  if isWhiteout hdr.name then .ok (handleWhiteoutFS targetDir hdr.name fs)
  else extractTarEntryFS targetDir hdr fs

/-! ## Config writer (src/pkg/fs/containerConfig.go) -/

/-- oci.ImageConfig (src/pkg/oci/layer.go): the runtime configuration
fields consumed by the config writer. -/
structure ImageConfig where
  entrypoint : List String
  cmd : List String
  env : List String
  workingDir : String
deriving DecidableEq, Repr

/-- The buffer produced by the write loops of writeAppEnv and
writeAppArgv: each value trimmed and followed by a newline. -/
def writeLinesGo : List String → String
  | [] => ""
  | l :: ls => trimGo l ++ "\n" ++ writeLinesGo ls

/-- writeAppEnv buffer content: trimmed env entries, one per line, then
the WORKDIR line (default "/") with no trailing newline. -/
def writeAppEnvContent (envList : List String) (workingDir : String) : String :=
  writeLinesGo envList ++ "WORKDIR=" ++ (if workingDir.length > 0 then workingDir else "/")

/-- writeAppArgv buffer content: the entrypoint loop then the cmd
loop. -/
def writeAppArgvContent (entrypoint cmd : List String) : String :=
  writeLinesGo entrypoint ++ writeLinesGo cmd

/-- WriteContainerConfig: the two files written under
rootfs/walkio, as (path, mode, content) triples. -/
def writeContainerConfigFiles (rootfsDir : String) (config : ImageConfig) : List (String × Nat × String) :=
  let configDir := pathJoin2 rootfsDir "walkio"
  [ (pathJoin2 configDir "env", 0o644, writeAppEnvContent config.env config.workingDir),
    (pathJoin2 configDir "argv", 0o644, writeAppArgvContent config.entrypoint config.cmd) ]

/-! ## Atomic file write (src/pkg/fs/atomicWrite.go)

WriteFileAtomic is modelled as a straight-line run over a directory
state (path to (mode, content)); the only nondeterminism is which
operation fails first, captured by `failAt` (0 = CreateTemp, 1 =
Chmod, 2 = Write, 3 = Sync, 4 = Close, 5 = Rename, 6 = open dir,
7 = dir Sync; anything else fails nothing).  The run returns the
result, the final state, the trace of every intermediate state, and
the names of the operations performed. -/

abbrev DirFS := List (String × Nat × String)

def dfsLookup (fs : DirFS) (p : String) : Option (Nat × String) :=
  match fs with
  | [] => none
  | (q, m, c) :: rest => if q = p then some (m, c) else dfsLookup rest p

def dfsInsert (fs : DirFS) (p : String) (v : Nat × String) : DirFS :=
  match fs with
  | [] => [(p, v.1, v.2)]
  | (q, m, c) :: rest => if q = p then (p, v.1, v.2) :: rest else (q, m, c) :: dfsInsert rest p v

def dfsDelete (fs : DirFS) (p : String) : DirFS :=
  fs.filter (fun e => e.1 ≠ p)

/-- The content stored at a path, when present. -/
def contentAt (fs : DirFS) (p : String) : Option String :=
  (dfsLookup fs p).map (fun v => v.2)

/-- The mode stored at a path, when present. -/
def modeAt (fs : DirFS) (p : String) : Option Nat :=
  (dfsLookup fs p).map (fun v => v.1)

/-- The operation of a WriteFileAtomic run that fails first, when
any does. -/
inductive AtomicFail where
  | createtemp | chmod | write | sync | close | rename | opendir | syncdir
deriving DecidableEq, Repr

/-- Inputs of a WriteFileAtomic run.  `tmpBase` is the random basename
chosen by os.CreateTemp (fresh by the CreateTemp contract). -/
structure AtomicInput where
  filePath : String
  data : String
  perm : Nat
  tmpBase : String
  failAt : Option AtomicFail
deriving DecidableEq, Repr

/-- The temp file path: os.CreateTemp joins its random name onto
dir = path.Dir(filePath). -/
def tmpNameOf (i : AtomicInput) : String :=
  let dir := pathDir i.filePath
  if dir.data.getLast? = some '/' then dir ++ i.tmpBase else dir ++ "/" ++ i.tmpBase

/-- WriteFileAtomic from src/pkg/fs/atomicWrite.go: create a temp file
in the same directory, chmod, write, sync, close, rename onto the
target, open and sync the directory; the deferred os.Remove deletes
the temp file on every path (after a successful rename it no longer
exists).  Directory open and sync do not change the state. -/
def writeFileAtomicRun (i : AtomicInput) (fs0 : DirFS) :
    Except String Unit × DirFS × List DirFS × List String :=
  let t := tmpNameOf i
  match i.failAt with
  | some .createtemp => (.error "createtemp", fs0, [fs0], ["createtemp"])
  | some .chmod =>
    let fs1 := dfsInsert fs0 t (0o600, "")
    let fs2 := dfsDelete fs1 t
    (.error "chmod", fs2, [fs0, fs1, fs2], ["createtemp", "chmod"])
  | some .write =>
    let fs1 := dfsInsert fs0 t (0o600, "")
    let fs2 := dfsInsert fs1 t (i.perm, "")
    let fs3 := dfsDelete fs2 t
    (.error "write", fs3, [fs0, fs1, fs2, fs3], ["createtemp", "chmod", "write"])
  | some .sync =>
    let fs1 := dfsInsert fs0 t (0o600, "")
    let fs2 := dfsInsert fs1 t (i.perm, "")
    let fs3 := dfsInsert fs2 t (i.perm, i.data)
    let fs4 := dfsDelete fs3 t
    (.error "sync", fs4, [fs0, fs1, fs2, fs3, fs4], ["createtemp", "chmod", "write", "sync"])
  | some .close =>
    let fs1 := dfsInsert fs0 t (0o600, "")
    let fs2 := dfsInsert fs1 t (i.perm, "")
    let fs3 := dfsInsert fs2 t (i.perm, i.data)
    let fs4 := dfsDelete fs3 t
    (.error "close", fs4, [fs0, fs1, fs2, fs3, fs4],
      ["createtemp", "chmod", "write", "sync", "close"])
  | some .rename =>
    let fs1 := dfsInsert fs0 t (0o600, "")
    let fs2 := dfsInsert fs1 t (i.perm, "")
    let fs3 := dfsInsert fs2 t (i.perm, i.data)
    let fs4 := dfsDelete fs3 t
    (.error "rename", fs4, [fs0, fs1, fs2, fs3, fs4],
      ["createtemp", "chmod", "write", "sync", "close", "rename"])
  | some .opendir =>
    let fs1 := dfsInsert fs0 t (0o600, "")
    let fs2 := dfsInsert fs1 t (i.perm, "")
    let fs3 := dfsInsert fs2 t (i.perm, i.data)
    let fs4 := dfsInsert (dfsDelete fs3 t) i.filePath (i.perm, i.data)
    (.error "opendir", fs4, [fs0, fs1, fs2, fs3, fs4],
      ["createtemp", "chmod", "write", "sync", "close", "rename", "opendir"])
  | some .syncdir =>
    let fs1 := dfsInsert fs0 t (0o600, "")
    let fs2 := dfsInsert fs1 t (i.perm, "")
    let fs3 := dfsInsert fs2 t (i.perm, i.data)
    let fs4 := dfsInsert (dfsDelete fs3 t) i.filePath (i.perm, i.data)
    (.error "syncdir", fs4, [fs0, fs1, fs2, fs3, fs4],
      ["createtemp", "chmod", "write", "sync", "close", "rename", "opendir", "syncdir"])
  | none =>
    let fs1 := dfsInsert fs0 t (0o600, "")
    let fs2 := dfsInsert fs1 t (i.perm, "")
    let fs3 := dfsInsert fs2 t (i.perm, i.data)
    let fs4 := dfsInsert (dfsDelete fs3 t) i.filePath (i.perm, i.data)
    (.ok (), fs4, [fs0, fs1, fs2, fs3, fs4],
      ["createtemp", "chmod", "write", "sync", "close", "rename", "opendir", "syncdir"])

/-! ## Block device sizing (src/pkg/fs/ext4Device.go lines 79 to 103 and
src/pkg/fs/blockdevice.go lines 39 to 59) -/

/-- The size passed to createSparseFile by Ext4Builder.NewDevice in
src/pkg/fs/ext4Device.go: max of opts.SizeBytes and the 7 MiB journal
minimum. -/
def ext4NewDeviceAllocSize (sizeBytes : Int) : Int :=
  max sizeBytes (7 * 1024 * 1024)

/-- The size passed to createSparseFile by Ext4Builder.NewDevice in
src/pkg/fs/blockdevice.go: the du -sb size of the source directory
with a 15 percent buffer, in Go int64 arithmetic (truncating
division); no minimum is applied. -/
def blockdeviceAllocSize (duSizeBytes : Int) : Int :=
  Int.tdiv (duSizeBytes * 115) 100

/-! ## App device build orchestration (src/internal/builder/appDevice.go) -/

/-- Decimal digits of a natural number (fuel-driven, model of the
digits produced by strconv.FormatInt). -/
def natDigits : Nat → Nat → CL
  | 0, _ => []
  | _ + 1, n =>
    if n = 0 then []
    else natDigits n (n / 10) ++ [Char.ofNat (n % 10 + 48)]

/-- Model of strconv.FormatInt(ts, 10). -/
def formatInt (i : Int) : String :=
  if i = 0 then "0"
  else if i < 0 then ⟨'-' :: natDigits i.natAbs i.natAbs⟩
  else ⟨natDigits i.natAbs i.natAbs⟩

/-- Model of strconv.ParseInt(s, 10, 64): an optional sign followed by
at least one decimal digit, value within the int64 range; anything
else is a parse error (none). -/
def parseInt64 (s : String) : Option Int :=
  match s.data with
  | [] => none
  | c :: rest =>
    let p : Bool × CL :=
      if c = '-' then (true, rest) else if c = '+' then (false, rest) else (false, c :: rest)
    match p.2 with
    | [] => none
    | ds =>
      if ds.all (fun d => '0' ≤ d ∧ d ≤ '9') then
        let n : Nat := ds.foldl (fun acc d => acc * 10 + (d.toNat - 48)) 0
        let v : Int := if p.1 then -(n : Int) else (n : Int)
        if -(2 ^ 63) ≤ v ∧ v ≤ 2 ^ 63 - 1 then some v else none
      else none

/-- isNewstBuild from src/internal/builder/appDevice.go, with the
os.ReadFile outcome passed in: a read error or a parse error means
this build counts as newest; otherwise the stored timestamp must not
exceed this build's timestamp. -/
def isNewstBuild (data : Option String) (timestamp : Int) : Bool :=
  match data with
  | none => true
  | some s =>
    match parseInt64 s with
    | none => true
    | some ts => ts ≤ timestamp

/-- Marker content standing for the bytes of the built ext4 device
file produced by deviceBuilder.NewDevice. -/
def deviceFileContent : String := "ext4-device"

/-- Inputs of the publication-relevant part of BuildAppDevice.
`interfere` models a concurrent actor that replaces (some (some c)) or
deletes (some none) the wanted file between this build's own write and
the publication guard; none means no interference. -/
structure PublishInput where
  outputDir : String
  digestHex : String
  buildTimeStamp : Int
  interfere : Option (Option String)
deriving DecidableEq, Repr

/-- File map of the output directory: path to content. -/
abbrev OutFS := List (String × String)

def outLookup (fs : OutFS) (p : String) : Option String :=
  match fs with
  | [] => none
  | (q, c) :: rest => if q = p then some c else outLookup rest p

def outInsert (fs : OutFS) (p : String) (c : String) : OutFS :=
  match fs with
  | [] => [(p, c)]
  | (q, d) :: rest => if q = p then (p, c) :: rest else (q, d) :: outInsert rest p c

def outDelete (fs : OutFS) (p : String) : OutFS :=
  fs.filter (fun e => e.1 ≠ p)

/-- The wanted-marker path written by BuildAppDevice. -/
def wantedFilePathOf (outputDir digestHex : String) : String :=
  pathJoin2 outputDir (digestHex ++ ".wanted")

/-- The temp device path used by BuildAppDevice
(src/internal/builder/appDevice.go line 52). -/
def tmpDevicePathOf (outputDir digestHex : String) : String :=
  pathJoin2 outputDir (digestHex ++ "_tmp.ext4")

/-- The final published path. -/
def outputFilePathOf (outputDir digestHex : String) : String :=
  pathJoin2 outputDir (digestHex ++ ".ext4")

/-- The output-directory state reached by BuildAppDevice just before
the publication guard: the wanted marker holds this build's timestamp
(written atomically, modelled by its post-state), the temp device file
exists, and a concurrent actor may have updated the wanted marker.
The flatten, config and mount steps touch only the work directory and
the mounted device, not the output directory. -/
def buildPrePublish (i : PublishInput) (fs0 : OutFS) : OutFS :=
  let wantedFile := wantedFilePathOf i.outputDir i.digestHex
  let fs1 := outInsert fs0 wantedFile (formatInt i.buildTimeStamp)
  let fs2 := outInsert fs1 (tmpDevicePathOf i.outputDir i.digestHex) deviceFileContent
  match i.interfere with
  | none => fs2
  | some none => outDelete fs2 wantedFile
  | some (some c) => outInsert fs2 wantedFile c

/-- The publication phase of BuildAppDevice: re-read the wanted
marker; when a newer build is detected return the error without
touching the temp device; otherwise rename the temp device onto the
final name.  Returns the result (error message or published path) and
the final output-directory state. -/
def buildAppDevicePublish (i : PublishInput) (fs0 : OutFS) : Except String String × OutFS :=
  let wantedFile := wantedFilePathOf i.outputDir i.digestHex
  let pre := buildPrePublish i fs0
  if ¬ isNewstBuild (outLookup pre wantedFile) i.buildTimeStamp then
    (.error "newer build detected not publishing", pre)
  else
    let tmpDevicePath := tmpDevicePathOf i.outputDir i.digestHex
    let outputFilePath := outputFilePathOf i.outputDir i.digestHex
    match outLookup pre tmpDevicePath with
    | none => (.error "rename: no such file", pre)
    | some c => (.ok outputFilePath, outInsert (outDelete pre tmpDevicePath) outputFilePath c)

/-! ## Ext4 device unmount (src/pkg/fs/ext4Device.go lines 49 to 76) -/

/-- mountDirName from src/pkg/fs/ext4Device.go: the device file base
name with its extension removed everywhere, suffixed with _mount. -/
def mountDirName (devicePath : String) : String :=
  strReplaceAll (pathBase devicePath) (pathExt devicePath) "" ++ "_mount"

/-- Membership test for the set of existing directories (model of the
os.Stat existence check). -/
def listHas : List String → String → Bool
  | [], _ => false
  | x :: t, p => x = p || listHas t p

/-- Unmount from src/pkg/fs/ext4Device.go over a set of existing
directories: when the derived mount directory does not exist, return
nil at once; otherwise run umount (may fail), then RemoveAll the
mount directory (may fail).  `umountOk` and `removeOk` model the two
shelled-out operations. -/
def unmountGo (tempDir devicePath : String) (umountOk removeOk : Bool)
    (dirs : List String) : Except String (List String) :=
  let mountDir := pathJoin2 tempDir (mountDirName devicePath)
  if ¬ listHas dirs mountDir then .ok dirs
  else if ¬ umountOk then .error "umount failed"
  else if ¬ removeOk then .error "removeall failed"
  else .ok (dirs.filter (fun d => ¬ atOrUnder mountDir d))

/-! ## Spec-side vocabulary -/

/-- A plain path component: nonempty, not a dot component, and free of
separators. -/
def PlainC (c : CL) : Prop :=
  c ≠ [] ∧ c ≠ ['.'] ∧ c ≠ ['.', '.'] ∧ '/' ∉ c

instance (c : CL) : Decidable (PlainC c) := by
  unfold PlainC; infer_instance

/-- A plain component as a string. -/
def PlainS (s : String) : Prop := PlainC s.data

instance (s : String) : Decidable (PlainS s) := by
  unfold PlainS; infer_instance

/-- Every component of the list is plain. -/
def PlainL (cs : List String) : Prop := ∀ c ∈ cs, PlainC c.data

instance (cs : List String) : Decidable (PlainL cs) := by
  unfold PlainL; infer_instance

/-- Render an absolute path from components. -/
def absOf (cs : List String) : String := ⟨'/' :: joinWith '/' (cs.map String.data)⟩

/-- Render a relative path from components. -/
def relOf (cs : List String) : String := ⟨joinWith '/' (cs.map String.data)⟩

/-- The spec reading of being lexically within a directory: the
directory itself, or strictly below it. -/
def withinDir (root p : String) : Bool := atOrUnder root p

/-- Lines joined with a single newline and no trailing newline (the
layout the spec prescribes for walkio/env). -/
def specLines : List String → String
  | [] => ""
  | [l] => l
  | l :: ls => l ++ "\n" ++ specLines ls

instance {α β : Type} [DecidableEq α] [DecidableEq β] : DecidableEq (Except α β) := fun a b => by
  cases a with
  | error x =>
    cases b with
    | error y =>
      exact if h : x = y then isTrue (by rw [h]) else isFalse (fun e => h (Except.error.inj e))
    | ok y => exact isFalse (fun e => Except.noConfusion e)
  | ok x =>
    cases b with
    | error y => exact isFalse (fun e => Except.noConfusion e)
    | ok y =>
      exact if h : x = y then isTrue (by rw [h]) else isFalse (fun e => h (Except.ok.inj e))

/-! ## Basic string and list lemmas -/

lemma str_append_assoc (a b c : String) : a ++ b ++ c = a ++ (b ++ c) := by
  apply String.ext
  simp [String.data_append, List.append_assoc]

lemma str_empty_append (s : String) : "" ++ s = s := by
  apply String.ext
  simp [String.data_append]

lemma str_append_empty (s : String) : s ++ "" = s := by
  apply String.ext
  simp [String.data_append]

lemma splitOnChar_ne_nil (sep : Char) (l : CL) : splitOnChar sep l ≠ [] := by
  induction l with
  | nil => simp [splitOnChar]
  | cons c rest ih =>
    simp only [splitOnChar]
    split
    · simp
    · cases h : splitOnChar sep rest with
      | nil => simp
      | cons a t => simp

lemma splitOnChar_append (sep : Char) (xs ys : CL) :
    splitOnChar sep (xs ++ sep :: ys) = splitOnChar sep xs ++ splitOnChar sep ys := by
  induction xs with
  | nil => simp [splitOnChar]
  | cons c rest ih =>
    by_cases hc : c = sep
    · subst hc
      simp [splitOnChar, ih]
    · simp only [List.cons_append, splitOnChar, ih, if_neg hc]
      cases h : splitOnChar sep rest with
      | nil => exact absurd h (splitOnChar_ne_nil sep rest)
      | cons a t => simp [h, ih]

lemma splitOnChar_sepFree (sep : Char) (l : CL) (h : sep ∉ l) : splitOnChar sep l = [l] := by
  induction l with
  | nil => rfl
  | cons c rest ih =>
    have hc : ¬ c = sep := by
      intro e
      exact h (e ▸ List.mem_cons_self c rest)
    have hr : sep ∉ rest := fun m => h (List.mem_cons_of_mem _ m)
    simp [splitOnChar, hc, ih hr]

lemma joinWith_cons (sep : Char) (x : CL) (ys : List CL) (h : ys ≠ []) :
    joinWith sep (x :: ys) = x ++ sep :: joinWith sep ys := by
  cases ys with
  | nil => exact absurd rfl h
  | cons y t => rfl

lemma joinWith_splitOnChar (sep : Char) (l : CL) : joinWith sep (splitOnChar sep l) = l := by
  induction l with
  | nil => rfl
  | cons c rest ih =>
    by_cases hc : c = sep
    · cases h : splitOnChar sep rest with
      | nil => exact absurd h (splitOnChar_ne_nil sep rest)
      | cons a t =>
        have h2 : joinWith sep ([] :: a :: t) = sep :: joinWith sep (a :: t) := rfl
        simp only [splitOnChar, if_pos hc]
        rw [h, h2, ← h, ih, hc]
    · simp only [splitOnChar, if_neg hc]
      cases h : splitOnChar sep rest with
      | nil => exact absurd h (splitOnChar_ne_nil sep rest)
      | cons a t =>
        rw [h] at ih
        cases t with
        | nil =>
          have h2 : joinWith sep [c :: a] = c :: a := rfl
          have ha : joinWith sep [a] = a := rfl
          rw [ha] at ih
          subst ih
          exact h2
        | cons b t2 =>
          have h2 : joinWith sep ((c :: a) :: b :: t2) = (c :: a) ++ sep :: joinWith sep (b :: t2) := rfl
          rw [h2]
          rw [joinWith_cons sep a (b :: t2) (by simp)] at ih
          simp [← ih]

lemma splitOnChar_joinWith (sep : Char) (parts : List CL) (hne : parts ≠ [])
    (hf : ∀ p ∈ parts, sep ∉ p) : splitOnChar sep (joinWith sep parts) = parts := by
  induction parts with
  | nil => exact absurd rfl hne
  | cons x ys ih =>
    cases ys with
    | nil => exact splitOnChar_sepFree sep x (hf x (by simp))
    | cons y t =>
      rw [joinWith_cons sep x (y :: t) (by simp), splitOnChar_append,
        splitOnChar_sepFree sep x (hf x (by simp)),
        ih (by simp) (fun p hp => hf p (List.mem_cons_of_mem _ hp))]
      rfl

lemma joinWith_snoc (sep : Char) (cs : List CL) (x : CL) (h : cs ≠ []) :
    joinWith sep (cs ++ [x]) = joinWith sep cs ++ sep :: x := by
  induction cs with
  | nil => exact absurd rfl h
  | cons c t ih =>
    cases t with
    | nil => rfl
    | cons d t2 =>
      rw [List.cons_append, joinWith_cons sep c ((d :: t2) ++ [x]) (by simp),
        joinWith_cons sep c (d :: t2) (by simp), ih (by simp)]
      simp

lemma clStartsWith_iff (p s : CL) : clStartsWith p s = true ↔ ∃ r, s = p ++ r := by
  induction p generalizing s with
  | nil =>
    simp [clStartsWith]
  | cons a ps ih =>
    cases s with
    | nil =>
      simp [clStartsWith]
    | cons c cs =>
      simp only [clStartsWith, Bool.and_eq_true, decide_eq_true_eq, ih]
      constructor
      · rintro ⟨rfl, r, rfl⟩
        exact ⟨r, rfl⟩
      · rintro ⟨r, h⟩
        injection h with h1 h2
        exact ⟨h1.symm, r, h2⟩

lemma clStartsWith_append_self (p r : CL) : clStartsWith p (p ++ r) = true :=
  (clStartsWith_iff p (p ++ r)).mpr ⟨r, rfl⟩

lemma clStartsWith_length (p s : CL) (h : clStartsWith p s = true) : p.length ≤ s.length := by
  obtain ⟨r, rfl⟩ := (clStartsWith_iff p s).mp h
  simp

lemma takeWhile_append_stop (p : Char → Bool) (xs : CL) (y : Char) (ys : CL)
    (hxs : ∀ x ∈ xs, p x = true) (hy : p y = false) :
    ((xs ++ y :: ys).takeWhile p) = xs := by
  induction xs with
  | nil => simp [List.takeWhile_cons, hy]
  | cons x t ih =>
    simp only [List.cons_append, List.takeWhile_cons, hxs x (by simp), if_pos]
    rw [ih (fun z hz => hxs z (List.mem_cons_of_mem _ hz))]

lemma dropWhile_append_stop (p : Char → Bool) (xs : CL) (y : Char) (ys : CL)
    (hxs : ∀ x ∈ xs, p x = true) (hy : p y = false) :
    ((xs ++ y :: ys).dropWhile p) = y :: ys := by
  induction xs with
  | nil => simp [List.dropWhile_cons, hy]
  | cons x t ih =>
    simp only [List.cons_append, List.dropWhile_cons, hxs x (by simp), if_pos]
    exact ih (fun z hz => hxs z (List.mem_cons_of_mem _ hz))

lemma takeWhile_all (p : Char → Bool) (xs : CL) (hxs : ∀ x ∈ xs, p x = true) :
    xs.takeWhile p = xs := by
  induction xs with
  | nil => rfl
  | cons x t ih =>
    simp only [List.takeWhile_cons, hxs x (by simp), if_pos]
    rw [ih (fun z hz => hxs z (List.mem_cons_of_mem _ hz))]

lemma dropWhile_all (p : Char → Bool) (xs : CL) (hxs : ∀ x ∈ xs, p x = true) :
    xs.dropWhile p = [] := by
  induction xs with
  | nil => rfl
  | cons x t ih =>
    simp only [List.dropWhile_cons, hxs x (by simp), if_pos]
    exact ih (fun z hz => hxs z (List.mem_cons_of_mem _ hz))

lemma splitLastSlash_sepFree (b : CL) (h : '/' ∉ b) : splitLastSlash b = ([], b) := by
  simp only [splitLastSlash]
  have hb : ∀ x ∈ b.reverse, (fun c => decide (c ≠ '/')) x = true := by
    intro x hx
    simp only [decide_eq_true_eq]
    intro e
    exact h (e ▸ (List.mem_reverse.mp hx))
  rw [takeWhile_all _ _ hb, dropWhile_all _ _ hb]
  simp

lemma splitLastSlash_append (d b : CL) (hb : '/' ∉ b) :
    splitLastSlash (d ++ '/' :: b) = (d ++ ['/'], b) := by
  simp only [splitLastSlash]
  have hrev : (d ++ '/' :: b).reverse = b.reverse ++ '/' :: d.reverse := by
    simp [List.reverse_append]
  have hball : ∀ x ∈ b.reverse, (fun c => decide (c ≠ '/')) x = true := by
    intro x hx
    simp only [decide_eq_true_eq]
    intro e
    exact hb (e ▸ (List.mem_reverse.mp hx))
  rw [hrev, takeWhile_append_stop _ _ _ _ hball (by simp),
    dropWhile_append_stop _ _ _ _ hball (by simp)]
  simp

/-! ## Lemmas about Clean, Join and Split on plain component paths -/

lemma splitOnChar_cons_sep (sep : Char) (l : CL) :
    splitOnChar sep (sep :: l) = [] :: splitOnChar sep l := by
  simp [splitOnChar]

lemma cleanStep_plain (rooted : Bool) (acc : List CL) (c : CL) (h : PlainC c) :
    cleanStep rooted acc c = acc ++ [c] := by
  unfold cleanStep
  rw [if_neg h.2.2.1]

lemma foldl_cleanStep_plain (rooted : Bool) (cs : List CL) (h : ∀ c ∈ cs, PlainC c) :
    ∀ acc, cs.foldl (cleanStep rooted) acc = acc ++ cs := by
  induction cs with
  | nil => intro acc; simp
  | cons c t ih =>
    intro acc
    rw [List.foldl_cons, cleanStep_plain rooted acc c (h c (by simp)),
      ih (fun z hz => h z (List.mem_cons_of_mem _ hz)), List.append_assoc]
    rfl

lemma plainc_sepFree (c : CL) (h : PlainC c) : '/' ∉ c := h.2.2.2

lemma joinWith_ne_nil (cs : List CL) (hne : cs ≠ []) (h : ∀ c ∈ cs, c ≠ []) :
    joinWith '/' cs ≠ [] := by
  cases cs with
  | nil => exact absurd rfl hne
  | cons c t =>
    cases t with
    | nil => exact h c (by simp)
    | cons d t2 =>
      rw [joinWith_cons _ _ _ (by simp)]
      cases hc : c with
      | nil => exact absurd hc (h c (by simp))
      | cons a b => simp

lemma splitFilter_join (cs : List CL) (h : ∀ c ∈ cs, PlainC c) :
    (splitOnChar '/' (joinWith '/' cs)).filter (fun c => c ≠ [] ∧ c ≠ ['.']) = cs := by
  cases hcs : cs with
  | nil => rfl
  | cons c t =>
    rw [← hcs]
    rw [splitOnChar_joinWith '/' cs (by rw [hcs]; simp)
      (fun p hp => plainc_sepFree p (h p hp))]
    exact List.filter_eq_self.mpr (fun a ha => by
      have hp := h a ha
      simp [hp.1, hp.2.1])

lemma goCleanCL_of_rooted (s : CL) (cs : List CL)
    (h0 : ∃ t, s = '/' :: t)
    (hsplit : (splitOnChar '/' s).filter (fun c => c ≠ [] ∧ c ≠ ['.']) = cs)
    (hcs : ∀ c ∈ cs, PlainC c) :
    goCleanCL s = '/' :: joinWith '/' cs := by
  obtain ⟨t, rfl⟩ := h0
  simp only [goCleanCL]
  rw [hsplit, if_pos (by simp), foldl_cleanStep_plain _ cs hcs []]
  rfl

lemma goCleanCL_of_rel (s : CL) (cs : List CL)
    (h0 : s ≠ []) (hhead : s.head? ≠ some '/')
    (hsplit : (splitOnChar '/' s).filter (fun c => c ≠ [] ∧ c ≠ ['.']) = cs)
    (hcs : ∀ c ∈ cs, PlainC c) (hne : cs ≠ []) :
    goCleanCL s = joinWith '/' cs := by
  cases s with
  | nil => exact absurd rfl h0
  | cons c0 t =>
    have hc0 : ¬ c0 = '/' := by
      intro e
      exact hhead (by simp [e])
    simp only [goCleanCL]
    rw [hsplit, if_neg (by simp [hc0]), foldl_cleanStep_plain _ cs hcs []]
    cases cs with
    | nil => exact absurd rfl hne
    | cons a b => simp

lemma head?_joinWith (c : CL) (t : List CL) (hc : c ≠ []) :
    (joinWith '/' (c :: t)).head? = c.head? := by
  cases t with
  | nil => rfl
  | cons d t2 =>
    rw [joinWith_cons _ _ _ (by simp)]
    cases c with
    | nil => exact absurd rfl hc
    | cons a b => rfl

/-- Clean is the identity on a rendered absolute plain path. -/
lemma goCleanCL_absOf (cs : List CL) (h : ∀ c ∈ cs, PlainC c) :
    goCleanCL ('/' :: joinWith '/' cs) = '/' :: joinWith '/' cs := by
  apply goCleanCL_of_rooted _ cs ⟨_, rfl⟩ _ h
  rw [splitOnChar_cons_sep]
  rw [List.filter_cons]
  simp only [decide_eq_true_eq]
  rw [if_neg (by simp)]
  exact splitFilter_join cs h

/-- Clean is the identity on a rendered relative plain path. -/
lemma goCleanCL_relOf (cs : List CL) (h : ∀ c ∈ cs, PlainC c) (hne : cs ≠ []) :
    goCleanCL (joinWith '/' cs) = joinWith '/' cs := by
  cases cs with
  | nil => exact absurd rfl hne
  | cons c t =>
    apply goCleanCL_of_rel _ (c :: t)
      (joinWith_ne_nil _ (by simp) (fun z hz => (h z hz).1))
      _ (splitFilter_join _ h) h (by simp)
    rw [head?_joinWith c t (h c (by simp)).1]
    have hc := h c (by simp)
    cases hc2 : c with
    | nil => exact absurd hc2 hc.1
    | cons a b =>
      simp only [List.head?]
      intro e
      have ha : a = '/' := by simpa using e
      exact hc.2.2.2 (by rw [hc2, ha]; exact List.mem_cons_self _ _)

/-! ## Join lemmas on rendered plain paths -/

lemma plainL_map (cs : List String) (h : PlainL cs) :
    ∀ c ∈ cs.map String.data, PlainC c := by
  intro c hc
  obtain ⟨s, hs, rfl⟩ := List.mem_map.mp hc
  exact h s hs

lemma goJoinList_eq_clean (elems : List String) (l : List CL)
    (hfil : (elems.map String.data).filter (fun d => d ≠ []) = l) (hne : l ≠ []) :
    goJoinList elems = ⟨goCleanCL (joinWith '/' l)⟩ := by
  simp only [goJoinList]
  rw [hfil]
  cases l with
  | nil => exact absurd rfl hne
  | cons a b => rfl

lemma absOf_data_ne_nil (T : List String) : (absOf T).data ≠ [] := by
  simp [absOf]

lemma relOf_data_ne_nil (B : List String) (hB : PlainL B) (hne : B ≠ []) :
    (relOf B).data ≠ [] := by
  show joinWith '/' (B.map String.data) ≠ []
  exact joinWith_ne_nil _ (by simpa using hne)
    (fun z hz => (plainL_map B hB z hz).1)

lemma goJoin_abs_empty (T : List String) (hT : PlainL T) :
    goJoinList [absOf T, ""] = absOf T := by
  rw [goJoinList_eq_clean [absOf T, ""] [(absOf T).data]
    (by simp [absOf_data_ne_nil]) (by simp)]
  show (⟨goCleanCL (absOf T).data⟩ : String) = absOf T
  apply String.ext
  exact goCleanCL_absOf (T.map String.data) (plainL_map T hT)

lemma goJoin_abs_rel (T B : List String) (hT : PlainL T) (hB : PlainL B) (hBne : B ≠ []) :
    goJoinList [absOf T, relOf B] = absOf (T ++ B) := by
  rw [goJoinList_eq_clean [absOf T, relOf B] [(absOf T).data, (relOf B).data]
    (by simp [absOf_data_ne_nil, relOf_data_ne_nil B hB hBne]) (by simp)]
  apply String.ext
  show goCleanCL (joinWith '/' [(absOf T).data, (relOf B).data]) = (absOf (T ++ B)).data
  have hjoin : joinWith '/' [(absOf T).data, (relOf B).data]
      = '/' :: (joinWith '/' (T.map String.data) ++ '/' :: joinWith '/' (B.map String.data)) := by
    rw [joinWith_cons _ _ _ (by simp)]
    rfl
  rw [hjoin]
  rw [goCleanCL_of_rooted _ (T.map String.data ++ B.map String.data) ⟨_, rfl⟩ ?hsplit ?hplain]
  · show _ = '/' :: joinWith '/' ((T ++ B).map String.data)
    rw [List.map_append]
  case hsplit =>
    rw [splitOnChar_cons_sep, splitOnChar_append, List.filter_cons]
    rw [if_neg (by simp)]
    rw [List.filter_append, splitFilter_join _ (plainL_map T hT),
      splitFilter_join _ (plainL_map B hB)]
  case hplain =>
    intro c hc
    rcases List.mem_append.mp hc with h1 | h2
    · exact plainL_map T hT c h1
    · exact plainL_map B hB c h2

lemma relOf_single (n : String) : relOf [n] = n := by
  apply String.ext
  rfl

lemma goJoin_abs_name (T : List String) (n : String) (hT : PlainL T) (hn : PlainS n) :
    goJoinList [absOf T, n] = absOf (T ++ [n]) := by
  rw [← relOf_single n]
  exact goJoin_abs_rel T [n] hT (by simpa [PlainL] using hn) (by simp)

lemma goJoin_abs_dir (T D : List String) (hT : PlainL T) (hD : PlainL D) :
    goJoinList [absOf T, relOf D ++ "/"] = absOf (T ++ D) := by
  have hdata : (relOf D ++ "/").data = joinWith '/' (D.map String.data) ++ ['/'] := by
    rw [String.data_append]
    rfl
  rw [goJoinList_eq_clean [absOf T, relOf D ++ "/"]
    [(absOf T).data, joinWith '/' (D.map String.data) ++ ['/']]
    (by simp [absOf_data_ne_nil, hdata]) (by simp)]
  apply String.ext
  have hjoin : joinWith '/' [(absOf T).data, joinWith '/' (D.map String.data) ++ ['/']]
      = '/' :: (joinWith '/' (T.map String.data)
          ++ '/' :: (joinWith '/' (D.map String.data) ++ '/' :: [])) := by
    rw [joinWith_cons _ _ _ (by simp)]
    rfl
  rw [hjoin]
  rw [goCleanCL_of_rooted _ (T.map String.data ++ D.map String.data) ⟨_, rfl⟩ ?hsplit ?hplain]
  · show _ = '/' :: joinWith '/' ((T ++ D).map String.data)
    rw [List.map_append]
  case hsplit =>
    rw [splitOnChar_cons_sep, splitOnChar_append, splitOnChar_append, List.filter_cons]
    rw [if_neg (by simp)]
    rw [List.filter_append, List.filter_append, splitFilter_join _ (plainL_map T hT),
      splitFilter_join _ (plainL_map D hD)]
    have hnil : List.filter (fun c => decide (c ≠ [] ∧ c ≠ ['.'])) (splitOnChar '/' ([] : CL)) = [] := rfl
    rw [hnil, List.append_nil]
  case hplain =>
    intro c hc
    rcases List.mem_append.mp hc with h1 | h2
    · exact plainL_map T hT c h1
    · exact plainL_map D hD c h2

lemma goJoin_abs_dir_name (T D : List String) (n : String)
    (hT : PlainL T) (hD : PlainL D) (hn : PlainS n) :
    goJoinList [absOf T, relOf D ++ "/", n] = absOf (T ++ D ++ [n]) := by
  have hdata : (relOf D ++ "/").data = joinWith '/' (D.map String.data) ++ ['/'] := by
    rw [String.data_append]
    rfl
  have hnne : n.data ≠ [] := hn.1
  rw [goJoinList_eq_clean [absOf T, relOf D ++ "/", n]
    [(absOf T).data, joinWith '/' (D.map String.data) ++ ['/'], n.data]
    (by simp [absOf_data_ne_nil, hdata, hnne]) (by simp)]
  apply String.ext
  have hjoin : joinWith '/' [(absOf T).data, joinWith '/' (D.map String.data) ++ ['/'], n.data]
      = '/' :: (joinWith '/' (T.map String.data)
          ++ '/' :: (joinWith '/' (D.map String.data) ++ '/' :: ('/' :: n.data))) := by
    rw [joinWith_cons _ _ _ (by simp), joinWith_cons _ _ _ (by simp)]
    show ('/' :: joinWith '/' (T.map String.data)) ++ '/'
        :: ((joinWith '/' (D.map String.data) ++ ['/']) ++ '/' :: n.data) = _
    rw [List.cons_append, List.append_assoc]
    rfl
  rw [hjoin]
  rw [goCleanCL_of_rooted _ (T.map String.data ++ (D.map String.data ++ [n.data]))
    ⟨_, rfl⟩ ?hsplit ?hplain]
  · show _ = '/' :: joinWith '/' ((T ++ D ++ [n]).map String.data)
    rw [List.map_append, List.map_append, List.append_assoc]
    rfl
  case hsplit =>
    rw [splitOnChar_cons_sep, splitOnChar_append, splitOnChar_append, List.filter_cons]
    rw [if_neg (by simp)]
    rw [splitOnChar_cons_sep]
    rw [List.filter_append, List.filter_append, splitFilter_join _ (plainL_map T hT),
      splitFilter_join _ (plainL_map D hD)]
    rw [List.filter_cons, if_neg (by simp), splitOnChar_sepFree '/' n.data hn.2.2.2,
      List.filter_cons, List.filter_nil]
    rw [if_pos (by simp [hn.1, hn.2.1])]
  case hplain =>
    intro c hc
    rcases List.mem_append.mp hc with h1 | h2
    · exact plainL_map T hT c h1
    · rcases List.mem_append.mp h2 with h3 | h4
      · exact plainL_map D hD c h3
      · rw [List.mem_singleton.mp h4]
        exact hn

/-! ## Split, Clean, Dir and TrimPrefix on rendered paths -/

lemma goClean_relOf (cs : List String) (h : PlainL cs) (hne : cs ≠ []) :
    goClean (relOf cs) = relOf cs := by
  apply String.ext
  exact goCleanCL_relOf (cs.map String.data) (plainL_map cs h) (by simpa using hne)

lemma relOf_snoc_data (D : List String) (w : String) (hDne : D ≠ []) :
    (relOf (D ++ [w])).data
      = joinWith '/' (D.map String.data) ++ '/' :: w.data := by
  show joinWith '/' ((D ++ [w]).map String.data) = _
  rw [List.map_append]
  exact joinWith_snoc '/' (D.map String.data) w.data (by simpa using hDne)

lemma goSplit_relOf_snoc (D : List String) (w : String) (hDne : D ≠ [])
    (hw : '/' ∉ w.data) :
    goSplitDirFile (relOf (D ++ [w])) = (relOf D ++ "/", w) := by
  simp only [goSplitDirFile]
  rw [relOf_snoc_data D w hDne, splitLastSlash_append _ _ hw]
  apply Prod.ext
  · apply String.ext
    show joinWith '/' (D.map String.data) ++ ['/'] = (relOf D ++ "/").data
    rw [String.data_append]
    rfl
  · rfl

lemma goSplit_sepFree (w : String) (hw : '/' ∉ w.data) :
    goSplitDirFile w = ("", w) := by
  simp only [goSplitDirFile]
  rw [splitLastSlash_sepFree _ hw]

lemma strTrimPre_append (pre r : String) : strTrimPre pre (pre ++ r) = r := by
  unfold strTrimPre
  rw [String.data_append, if_pos (clStartsWith_append_self _ _)]
  apply String.ext
  show (pre.data ++ r.data).drop pre.data.length = r.data
  exact List.drop_left _ _

lemma wh_data (name : String) :
    (".wh." ++ name).data = ['.', 'w', 'h', '.'] ++ name.data := by
  rw [String.data_append]

lemma plainc_wh (nm : CL) (hsep : '/' ∉ nm) : PlainC (['.', 'w', 'h', '.'] ++ nm) := by
  refine ⟨by simp, ?_, ?_, ?_⟩
  · intro e
    have := congrArg List.length e
    simp at this
  · intro e
    have := congrArg List.length e
    simp at this
  · intro hm
    rcases List.mem_append.mp hm with h1 | h2
    · exact absurd h1 (by decide)
    · exact hsep h2

lemma plainS_wh (name : String) (hsep : '/' ∉ name.data) : PlainS (".wh." ++ name) := by
  show PlainC (".wh." ++ name).data
  rw [wh_data]
  exact plainc_wh name.data hsep

lemma plainS_append (a b : String) (ha : PlainS a) (hb : '/' ∉ b.data)
    (hlen : 2 < b.data.length) : PlainS (a ++ b) := by
  refine ⟨?_, ?_, ?_, ?_⟩
  · rw [String.data_append]
    intro e
    have h2 := congrArg List.length e
    rw [List.length_append] at h2
    simp only [List.length_nil] at h2
    omega
  · rw [String.data_append]
    intro e
    have h2 := congrArg List.length e
    rw [List.length_append] at h2
    simp only [List.length_cons, List.length_nil] at h2
    omega
  · rw [String.data_append]
    intro e
    have h2 := congrArg List.length e
    rw [List.length_append] at h2
    simp only [List.length_cons, List.length_nil] at h2
    omega
  · rw [String.data_append]
    intro hm
    rcases List.mem_append.mp hm with h1 | h2
    · exact ha.2.2.2 h1
    · exact hb h2

lemma pathDir_absOf_snoc (T : List String) (f : String) (hT : PlainL T)
    (hf : '/' ∉ f.data) :
    pathDir (absOf (T ++ [f])) = absOf T := by
  unfold pathDir
  cases hTc : T with
  | nil =>
    have hdata : (absOf ([] ++ [f])).data = [] ++ '/' :: f.data := rfl
    rw [hdata, splitLastSlash_append [] f.data hf]
    apply String.ext
    show goCleanCL ['/'] = (absOf []).data
    have h0 : goCleanCL ('/' :: joinWith '/' ([] : List CL)) = '/' :: joinWith '/' ([] : List CL) :=
      goCleanCL_absOf [] (by simp)
    exact h0
  | cons t0 ts =>
    rw [← hTc]
    have hTm : T.map String.data ≠ [] := by
      rw [hTc]
      simp
    have hdata : (absOf (T ++ [f])).data
        = ('/' :: joinWith '/' (T.map String.data)) ++ '/' :: f.data := by
      show '/' :: joinWith '/' ((T ++ [f]).map String.data) = _
      rw [List.map_append]
      show '/' :: joinWith '/' (T.map String.data ++ [f.data]) = _
      rw [joinWith_snoc '/' (T.map String.data) f.data hTm]
      rfl
    rw [hdata, splitLastSlash_append _ _ hf]
    apply String.ext
    show goCleanCL (('/' :: joinWith '/' (T.map String.data)) ++ ['/'])
        = '/' :: joinWith '/' (T.map String.data)
    rw [goCleanCL_of_rooted _ (T.map String.data) ⟨_, by rw [List.cons_append]⟩ ?hsplit
      (plainL_map T hT)]
    case hsplit =>
      rw [List.cons_append, splitOnChar_cons_sep]
      have : joinWith '/' (T.map String.data) ++ ['/']
          = joinWith '/' (T.map String.data) ++ '/' :: [] := rfl
      rw [this, splitOnChar_append, List.filter_cons, if_neg (by simp), List.filter_append,
        splitFilter_join _ (plainL_map T hT)]
      have hnil : List.filter (fun c => decide (c ≠ [] ∧ c ≠ ['.'])) (splitOnChar '/' ([] : CL)) = [] := rfl
      rw [hnil, List.append_nil]

/-! ## Filesystem model lemmas -/

lemma fsLookup_insert_self (fs : FS) (p : String) (n : FNode) :
    fsLookup (fsInsert fs p n) p = some n := by
  induction fs with
  | nil => simp [fsInsert, fsLookup]
  | cons e rest ih =>
    obtain ⟨q, m⟩ := e
    by_cases h : q = p
    · simp [fsInsert, h, fsLookup]
    · simp [fsInsert, h, fsLookup, ih]

lemma fsLookup_insert_ne (fs : FS) (p q : String) (n : FNode) (h : q ≠ p) :
    fsLookup (fsInsert fs p n) q = fsLookup fs q := by
  induction fs with
  | nil => simp [fsInsert, fsLookup, Ne.symm h]
  | cons e rest ih =>
    obtain ⟨r, m⟩ := e
    by_cases hr : r = p
    · subst hr
      simp [fsInsert, fsLookup, Ne.symm h]
    · simp only [fsInsert, if_neg hr, fsLookup]
      by_cases hq : r = q
      · simp [hq]
      · simp [hq, ih]

lemma fsLookup_removeAll_at (root p : String) (fs : FS) (h : atOrUnder root p = true) :
    fsLookup (removeAllFS root fs) p = none := by
  induction fs with
  | nil => rfl
  | cons e rest ih =>
    obtain ⟨q, m⟩ := e
    show fsLookup (List.filter _ ((q, m) :: rest)) p = none
    rw [List.filter_cons]
    by_cases hq : atOrUnder root q
    · rw [if_neg (by simp [hq])]
      exact ih
    · rw [if_pos (by simp [hq])]
      have hqp : ¬ q = p := fun e2 => hq (by rw [e2]; exact h)
      show (if q = p then some m else fsLookup (removeAllFS root rest) p) = none
      rw [if_neg hqp]
      exact ih

lemma fsLookup_removeAll_not (root p : String) (fs : FS) (h : atOrUnder root p = false) :
    fsLookup (removeAllFS root fs) p = fsLookup fs p := by
  induction fs with
  | nil => rfl
  | cons e rest ih =>
    obtain ⟨q, m⟩ := e
    show fsLookup (List.filter _ ((q, m) :: rest)) p
        = (if q = p then some m else fsLookup rest p)
    rw [List.filter_cons]
    by_cases hq : atOrUnder root q
    · rw [if_neg (by simp [hq])]
      have hqp : ¬ q = p := by
        intro e2
        rw [e2, h] at hq
        exact Bool.noConfusion hq
      rw [if_neg hqp]
      exact ih
    · rw [if_pos (by simp [hq])]
      show (if q = p then some m else fsLookup (removeAllFS root rest) p) = _
      by_cases hqp : q = p
      · rw [if_pos hqp, if_pos hqp]
      · rw [if_neg hqp, if_neg hqp]
        exact ih

lemma atOrUnder_self (p : String) : atOrUnder p p = true := by
  simp [atOrUnder]

lemma ensureDirs_nil (mode : Nat) (fs : FS) : ensureDirs [] mode fs = fs := rfl

lemma ensureDirs_cons (k : String) (keys : List String) (mode : Nat) (fs : FS) :
    ensureDirs (k :: keys) mode fs
      = ensureDirs keys mode (if fsLookup fs k = none then fsInsert fs k (.dir mode) else fs) := by
  simp [ensureDirs]

lemma ensureDirs_not_mem (keys : List String) (mode : Nat) (fs : FS) (q : String)
    (h : q ∉ keys) :
    fsLookup (ensureDirs keys mode fs) q = fsLookup fs q := by
  induction keys generalizing fs with
  | nil => rfl
  | cons k t ih =>
    rw [ensureDirs_cons]
    have hqk : q ≠ k := fun e => h (e ▸ List.mem_cons_self k t)
    rw [ih _ (fun hm => h (List.mem_cons_of_mem _ hm))]
    split
    · exact fsLookup_insert_ne fs k q _ hqk
    · rfl

lemma ensureDirs_persist (keys : List String) (mode : Nat) (fs : FS) (q : String) (v : FNode)
    (h : fsLookup fs q = some v) :
    fsLookup (ensureDirs keys mode fs) q = some v := by
  induction keys generalizing fs with
  | nil => exact h
  | cons k t ih =>
    rw [ensureDirs_cons]
    split
    · apply ih
      by_cases hqk : q = k
      · subst hqk
        rename_i hnone
        rw [h] at hnone
        exact Option.noConfusion hnone
      · rw [fsLookup_insert_ne fs k q _ hqk]
        exact h
    · exact ih _ h

lemma ensureDirs_creates (keys : List String) (mode : Nat) (fs : FS) (q : String)
    (hq : q ∈ keys) (h : fsLookup fs q = none) :
    fsLookup (ensureDirs keys mode fs) q = some (.dir mode) := by
  induction keys generalizing fs with
  | nil => exact absurd hq (List.not_mem_nil q)
  | cons k t ih =>
    rw [ensureDirs_cons]
    by_cases hqk : q = k
    · subst hqk
      rw [if_pos h]
      exact ensureDirs_persist t mode _ q _ (fsLookup_insert_self fs q _)
    · have hqt : q ∈ t := by
        rcases List.mem_cons.mp hq with h1 | h2
        · exact absurd h1 hqk
        · exact h2
      split
      · exact ih _ hqt (by rw [fsLookup_insert_ne fs k q _ hqk]; exact h)
      · exact ih _ hqt h

lemma renderPath_data (rooted : Bool) (cs : List CL) :
    (renderPath rooted cs).data = if rooted then '/' :: joinWith '/' cs else joinWith '/' cs := by
  cases rooted <;> rfl

lemma mem_ancPaths_self (rooted : Bool) (cs : List CL) (h : cs ≠ []) :
    renderPath rooted cs ∈ ancPaths rooted cs := by
  have hlen : 0 < cs.length := List.length_pos.mpr h
  have heq : renderPath rooted (cs.take (cs.length - 1 + 1)) = renderPath rooted cs := by
    have h2 : cs.length - 1 + 1 = cs.length := by omega
    rw [h2, List.take_length]
  rw [← heq]
  exact List.mem_map.mpr ⟨cs.length - 1, List.mem_range.mpr (by omega), rfl⟩

lemma joinWith_length_take (cs : List CL) (m : Nat) :
    (joinWith '/' (cs.take m)).length ≤ (joinWith '/' cs).length := by
  induction cs generalizing m with
  | nil => simp
  | cons c t ih =>
    cases m with
    | zero => simp [joinWith]
    | succ m2 =>
      rw [List.take_succ_cons]
      cases t with
      | nil => simp
      | cons d t2 =>
        cases hm : (d :: t2).take m2 with
        | nil =>
          rw [joinWith_cons _ c (d :: t2) (by simp)]
          have h1 : joinWith '/' [c] = c := rfl
          rw [h1]
          simp
        | cons x xs =>
          rw [← hm]
          rw [joinWith_cons _ c _ (by rw [hm]; simp), joinWith_cons _ c (d :: t2) (by simp)]
          simp only [List.length_append, List.length_cons]
          have h2 := ih m2
          omega

lemma anc_length_le (rooted : Bool) (cs : List CL) (a : String)
    (ha : a ∈ ancPaths rooted cs) :
    a.data.length ≤ (renderPath rooted cs).data.length := by
  obtain ⟨i, hi, rfl⟩ := List.mem_map.mp ha
  rw [renderPath_data, renderPath_data]
  cases rooted with
  | false =>
    simpa using joinWith_length_take cs (i + 1)
  | true =>
    simp only [if_pos, List.length_cons]
    have h2 := joinWith_length_take cs (i + 1)
    omega

lemma strictUnder_length (root q : String) (h : isStrictlyUnder root q = true) :
    root.data.length + 1 ≤ q.data.length := by
  have := clStartsWith_length _ _ h
  simpa using this

lemma notmem_anc_of_under (rooted : Bool) (cs : List CL) (q : String)
    (h : isStrictlyUnder (renderPath rooted cs) q = true) :
    q ∉ ancPaths rooted cs := by
  intro hm
  have h1 := anc_length_le rooted cs q hm
  have h2 := strictUnder_length _ _ h
  omega

lemma mkdirAll_eq_ensure (p : String) (mode : Nat) (fs : FS) (hp : p.data ≠ []) :
    ∃ rooted cs, renderPath rooted cs = p ∧ cs ≠ [] ∧
      mkdirAllFS p mode fs = ensureDirs (ancPaths rooted cs) mode fs := by
  cases hd : p.data with
  | nil => exact absurd hd hp
  | cons c rest =>
    by_cases hc : c = '/'
    · refine ⟨true, splitOnChar '/' rest, ?_, splitOnChar_ne_nil '/' rest, ?_⟩
      · apply String.ext
        rw [renderPath_data, if_pos rfl, joinWith_splitOnChar, hd, hc]
      · simp only [mkdirAllFS, hd, hc, if_pos]
    · refine ⟨false, splitOnChar '/' (c :: rest), ?_, splitOnChar_ne_nil '/' _, ?_⟩
      · apply String.ext
        rw [renderPath_data, if_neg (by simp), joinWith_splitOnChar, hd]
      · simp only [mkdirAllFS, hd, hc, if_neg, if_false]

lemma mkdirAll_self (p : String) (mode : Nat) (fs : FS) (hp : p.data ≠ [])
    (h : fsLookup fs p = none) :
    fsLookup (mkdirAllFS p mode fs) p = some (.dir mode) := by
  obtain ⟨r, cs, hrp, hcs, heq⟩ := mkdirAll_eq_ensure p mode fs hp
  rw [heq]
  exact ensureDirs_creates _ _ _ _ (hrp ▸ mem_ancPaths_self r cs hcs) h

lemma mkdirAll_under (p : String) (mode : Nat) (fs : FS) (q : String) (hp : p.data ≠ [])
    (hq : isStrictlyUnder p q = true) :
    fsLookup (mkdirAllFS p mode fs) q = fsLookup fs q := by
  obtain ⟨r, cs, hrp, hcs, heq⟩ := mkdirAll_eq_ensure p mode fs hp
  rw [heq]
  exact ensureDirs_not_mem _ _ _ _ (notmem_anc_of_under r cs q (by rw [hrp]; exact hq))

/-! ## Whiteout handling on rendered plain paths -/

lemma head?_str_append (s t : String) (c : Char) (cs : CL) (h : s.data = c :: cs) :
    ((s ++ t).data).head? = some c := by
  rw [String.data_append, h]
  rfl

lemma travMsg_ne_link (a b : String) :
    travMsg a ≠ "create hardlink: " ++ b := by
  intro h
  have e1 : ((("path traversal detected: " : String) ++ a).data).head? = some 'p' :=
    head?_str_append _ a 'p' ("ath traversal detected: ").data rfl
  have e2 : ((("create hardlink: " : String) ++ b).data).head? = some 'c' :=
    head?_str_append _ b 'c' ("reate hardlink: ").data rfl
  unfold travMsg at h
  rw [h] at e1
  rw [e1] at e2
  exact absurd e2 (by decide)

lemma goJoinList_mid_empty (a n : String) :
    goJoinList [a, "", n] = goJoinList [a, n] := by
  have hmid : List.filter (fun d => d ≠ ([] : CL)) ([] :: [n.data])
      = List.filter (fun d => d ≠ ([] : CL)) [n.data] := by
    rw [List.filter_cons]
    simp
  simp only [goJoinList, List.map_cons, List.map_nil]
  rw [List.filter_cons, hmid]
  conv_rhs => rw [List.filter_cons]

/-- A regular whiteout entry named `D/.wh.<name>` makes handleWhiteout
recursively remove `<targetDir>/D/<name>`. -/
lemma handleWhiteout_regular (T D : List String) (name : String) (fs : FS)
    (hT : PlainL T) (hD : PlainL D) (hname : PlainS name)
    (hnotop : name ≠ ".wh..opaque") :
    handleWhiteoutFS (absOf T) (relOf (D ++ [".wh." ++ name])) fs
      = removeAllFS (absOf (T ++ D ++ [name])) fs := by
  have hwplain : PlainS (".wh." ++ name) := plainS_wh name hname.2.2.2
  have hclean : goClean (relOf (D ++ [".wh." ++ name])) = relOf (D ++ [".wh." ++ name]) := by
    apply goClean_relOf
    · intro c hc
      rcases List.mem_append.mp hc with h1 | h2
      · exact hD c h1
      · rw [List.mem_singleton.mp h2]
        exact hwplain
    · simp
  unfold handleWhiteoutFS
  rw [hclean]
  cases hDc : D with
  | nil =>
    rw [hDc] at *
    have hrel : relOf ([] ++ [".wh." ++ name]) = ".wh." ++ name := by
      rw [List.nil_append, relOf_single]
    rw [hrel, goSplit_sepFree _ hwplain.2.2.2]
    simp only
    rw [strTrimPre_append, if_neg hnotop, goJoinList_mid_empty,
      goJoin_abs_name T name hT hname]
    rw [List.append_nil]
  | cons d0 ds =>
    rw [← hDc]
    have hDne : D ≠ [] := by rw [hDc]; simp
    rw [goSplit_relOf_snoc D _ hDne hwplain.2.2.2]
    simp only
    rw [strTrimPre_append, if_neg hnotop, goJoin_abs_dir_name T D name hT hD hname]

/-- An opaque whiteout entry named `D/.wh..wh..opaque` makes
handleWhiteout remove `<targetDir>/D` and recreate it with MkdirAll
mode 0755. -/
lemma hwOpaqueCase (T D : List String) (fs : FS)
    (hT : PlainL T) (hD : PlainL D) :
    handleWhiteoutFS (absOf T) (relOf (D ++ [".wh..wh..opaque"])) fs
      = mkdirAllFS (absOf (T ++ D)) 0o755 (removeAllFS (absOf (T ++ D)) fs) := by
  have hwplain : PlainS (".wh..wh..opaque" : String) := by decide
  have hsplit : (".wh..wh..opaque" : String) = ".wh." ++ ".wh..opaque" := by decide
  have hclean : goClean (relOf (D ++ [".wh..wh..opaque"]))
      = relOf (D ++ [".wh..wh..opaque"]) := by
    apply goClean_relOf
    · intro c hc
      rcases List.mem_append.mp hc with h1 | h2
      · exact hD c h1
      · rw [List.mem_singleton.mp h2]
        exact hwplain
    · simp
  unfold handleWhiteoutFS
  rw [hclean]
  cases hDc : D with
  | nil =>
    rw [hDc] at *
    have hrel : relOf ([] ++ [(".wh..wh..opaque" : String)]) = ".wh..wh..opaque" := by
      rw [List.nil_append, relOf_single]
    rw [hrel, goSplit_sepFree _ hwplain.2.2.2]
    simp only
    rw [hsplit, strTrimPre_append, if_pos rfl, goJoin_abs_empty T hT]
    rw [List.append_nil]
  | cons d0 ds =>
    rw [← hDc]
    have hDne : D ≠ [] := by rw [hDc]; simp
    rw [goSplit_relOf_snoc D _ hDne hwplain.2.2.2]
    simp only
    rw [hsplit, strTrimPre_append, if_pos rfl, goJoin_abs_dir T D hT hD]

/-- The state reached after an opaque whiteout: the directory exists
with mode 0755 and nothing remains below it. -/
lemma opaque_after (p : String) (fs : FS) (hp : p.data ≠ []) :
    fsLookup (mkdirAllFS p 0o755 (removeAllFS p fs)) p = some (.dir 0o755)
    ∧ ∀ q, isStrictlyUnder p q = true →
        fsLookup (mkdirAllFS p 0o755 (removeAllFS p fs)) q = none := by
  constructor
  · exact mkdirAll_self p _ _ hp (fsLookup_removeAll_at p p fs (atOrUnder_self p))
  · intro q hq
    rw [mkdirAll_under p _ _ q hp hq]
    exact fsLookup_removeAll_at p q fs (by simp [atOrUnder, hq])

lemma isWhiteout_eq (name : String) :
    isWhiteout name = strHasPre ".wh." (goSplitDirFile (goClean name)).2 := rfl

lemma processEntry_not_whiteout (tD : String) (hdr : TarHeader) (fs : FS)
    (h : isWhiteout hdr.name = false) :
    processEntry tD hdr fs = extractTarEntryFS tD hdr fs := by
  unfold processEntry
  rw [h]
  simp

lemma processEntry_whiteout (tD : String) (hdr : TarHeader) (fs : FS)
    (h : isWhiteout hdr.name = true) :
    processEntry tD hdr fs = .ok (handleWhiteoutFS tD hdr.name fs) := by
  unfold processEntry
  rw [h]
  simp

/-- The traversal rejection is exactly the string-prefix test on the
joined path. -/
lemma extract_err_iff (tD : String) (hdr : TarHeader) (fs : FS) :
    extractTarEntryFS tD hdr fs = .error (travMsg hdr.name)
      ↔ strHasPre tD (goJoinList [tD, goClean hdr.name]) = false := by
  unfold extractTarEntryFS
  by_cases hb : strHasPre tD (goJoinList [tD, goClean hdr.name]) = false
  · rw [if_pos hb]
    simp [hb]
  · rw [if_neg hb]
    have hbt : strHasPre tD (goJoinList [tD, goClean hdr.name]) = true := by
      cases h2 : strHasPre tD (goJoinList [tD, goClean hdr.name])
      · exact absurd h2 hb
      · rfl
    simp only [hbt]
    constructor
    · intro h
      cases htf : hdr.typeflag <;> rw [htf] at h
      · exact Except.noConfusion h
      · exact Except.noConfusion h
      · exact Except.noConfusion h
      · by_cases hlt : strHasPre tD (goJoinList [tD, goClean hdr.linkname]) = false
        · rw [if_pos hlt] at h
          exact Except.noConfusion h
        · rw [if_neg hlt] at h
          cases hlk : fsLookup fs (goJoinList [tD, goClean hdr.linkname]) <;> rw [hlk] at h
          · have := Except.error.inj h
            exact absurd this.symm (travMsg_ne_link hdr.name hdr.linkname)
          · exact Except.noConfusion h
      · exact Except.noConfusion h
      · exact Except.noConfusion h
      · exact Except.noConfusion h
      · exact Except.noConfusion h
    · intro h
      exact Bool.noConfusion h

/-! ## Config writer lemmas -/

lemma writeLinesGo_append (a b : List String) :
    writeLinesGo (a ++ b) = writeLinesGo a ++ writeLinesGo b := by
  induction a with
  | nil =>
    rw [List.nil_append]
    exact (str_empty_append _).symm
  | cons x t ih =>
    show trimGo x ++ "\n" ++ writeLinesGo (t ++ b) = (trimGo x ++ "\n" ++ writeLinesGo t) ++ writeLinesGo b
    rw [ih, ← str_append_assoc]

lemma specLines_cons (x : String) (l : List String) (h : l ≠ []) :
    specLines (x :: l) = x ++ "\n" ++ specLines l := by
  cases l with
  | nil => exact absurd rfl h
  | cons y t => rfl

lemma writeLines_spec (xs : List String) (h : xs ≠ []) :
    writeLinesGo xs = specLines (xs.map trimGo) ++ "\n" := by
  induction xs with
  | nil => exact absurd rfl h
  | cons x t ih =>
    cases t with
    | nil =>
      show trimGo x ++ "\n" ++ "" = specLines [trimGo x] ++ "\n"
      rw [str_append_empty]
      rfl
    | cons y t2 =>
      show trimGo x ++ "\n" ++ writeLinesGo (y :: t2)
          = specLines (List.map trimGo (x :: y :: t2)) ++ "\n"
      rw [List.map_cons, specLines_cons (trimGo x) (List.map trimGo (y :: t2)) (by simp),
        ih (by simp), ← str_append_assoc]

lemma wd_branch (wd : String) :
    (if wd.length > 0 then wd else "/") = (if wd = "" then "/" else wd) := by
  by_cases h : wd = ""
  · subst h
    simp
  · have hd : wd.data ≠ [] := by
      intro e
      exact h (String.ext (by rw [e]))
    have hl : wd.length > 0 := by
      show 0 < wd.data.length
      exact List.length_pos.mpr hd
    rw [if_pos hl, if_neg h]

lemma envContent_spec (env : List String) (wd : String) :
    writeAppEnvContent env wd
      = specLines (env.map trimGo ++ ["WORKDIR=" ++ (if wd = "" then "/" else wd)]) := by
  unfold writeAppEnvContent
  rw [wd_branch]
  induction env with
  | nil =>
    show ("" ++ "WORKDIR=") ++ _ = _
    rw [str_empty_append]
    rfl
  | cons x t ih =>
    show ((trimGo x ++ "\n" ++ writeLinesGo t) ++ "WORKDIR=") ++ _ = _
    rw [str_append_assoc (trimGo x ++ "\n") (writeLinesGo t) "WORKDIR=",
      str_append_assoc (trimGo x ++ "\n") (writeLinesGo t ++ "WORKDIR=") _, ih,
      List.map_cons, List.cons_append, specLines_cons _ _ (by simp), str_append_assoc]

lemma argvContent_eq (ep cmd : List String) :
    writeAppArgvContent ep cmd = writeLinesGo (ep ++ cmd) :=
  (writeLinesGo_append ep cmd).symm

/-! ## Association list lemmas for the output directory and the
atomic-write directory -/

lemma outLookup_insert_self (fs : OutFS) (p : String) (c : String) :
    outLookup (outInsert fs p c) p = some c := by
  induction fs with
  | nil => simp [outInsert, outLookup]
  | cons e rest ih =>
    obtain ⟨q, d⟩ := e
    by_cases h : q = p
    · simp [outInsert, h, outLookup]
    · simp [outInsert, h, outLookup, ih]

lemma outLookup_insert_ne (fs : OutFS) (p q : String) (c : String) (h : q ≠ p) :
    outLookup (outInsert fs p c) q = outLookup fs q := by
  induction fs with
  | nil => simp [outInsert, outLookup, Ne.symm h]
  | cons e rest ih =>
    obtain ⟨r, d⟩ := e
    by_cases hr : r = p
    · subst hr
      simp [outInsert, outLookup, Ne.symm h]
    · simp only [outInsert, if_neg hr, outLookup]
      by_cases hq : r = q
      · simp [hq]
      · simp [hq, ih]

lemma outLookup_delete_self (fs : OutFS) (p : String) :
    outLookup (outDelete fs p) p = none := by
  induction fs with
  | nil => rfl
  | cons e rest ih =>
    obtain ⟨q, d⟩ := e
    show outLookup (List.filter _ ((q, d) :: rest)) p = none
    rw [List.filter_cons]
    by_cases hq : q = p
    · rw [if_neg (by simp [hq])]
      exact ih
    · rw [if_pos (by simp [hq])]
      show (if q = p then some d else outLookup (outDelete rest p) p) = none
      rw [if_neg hq]
      exact ih

lemma outLookup_delete_ne (fs : OutFS) (p q : String) (h : q ≠ p) :
    outLookup (outDelete fs p) q = outLookup fs q := by
  induction fs with
  | nil => rfl
  | cons e rest ih =>
    obtain ⟨r, d⟩ := e
    show outLookup (List.filter _ ((r, d) :: rest)) q = _
    rw [List.filter_cons]
    by_cases hr : r = p
    · rw [if_neg (by simp [hr])]
      show outLookup (outDelete rest p) q = _
      rw [ih]
      show _ = (if r = q then some d else outLookup rest q)
      rw [if_neg (by rw [hr]; exact Ne.symm h)]
    · rw [if_pos (by simp [hr])]
      show (if r = q then some d else outLookup (outDelete rest p) q) = _
      by_cases hrq : r = q
      · rw [if_pos hrq]
        show _ = (if r = q then some d else outLookup rest q)
        rw [if_pos hrq]
      · rw [if_neg hrq, ih]
        show _ = (if r = q then some d else outLookup rest q)
        rw [if_neg hrq]

lemma dfsLookup_insert_self (fs : DirFS) (p : String) (v : Nat × String) :
    dfsLookup (dfsInsert fs p v) p = some v := by
  induction fs with
  | nil => simp [dfsInsert, dfsLookup]
  | cons e rest ih =>
    obtain ⟨q, m, c⟩ := e
    by_cases h : q = p
    · simp [dfsInsert, h, dfsLookup]
    · simp [dfsInsert, h, dfsLookup, ih]

lemma dfsLookup_insert_ne (fs : DirFS) (p q : String) (v : Nat × String) (h : q ≠ p) :
    dfsLookup (dfsInsert fs p v) q = dfsLookup fs q := by
  induction fs with
  | nil => simp [dfsInsert, dfsLookup, Ne.symm h]
  | cons e rest ih =>
    obtain ⟨r, m, c⟩ := e
    by_cases hr : r = p
    · subst hr
      simp [dfsInsert, dfsLookup, Ne.symm h]
    · simp only [dfsInsert, if_neg hr, dfsLookup]
      by_cases hq : r = q
      · simp [hq]
      · simp [hq, ih]

lemma dfsLookup_delete_self (fs : DirFS) (p : String) :
    dfsLookup (dfsDelete fs p) p = none := by
  induction fs with
  | nil => rfl
  | cons e rest ih =>
    obtain ⟨q, m, c⟩ := e
    show dfsLookup (List.filter _ ((q, m, c) :: rest)) p = none
    rw [List.filter_cons]
    by_cases hq : q = p
    · rw [if_neg (by simp [hq])]
      exact ih
    · rw [if_pos (by simp [hq])]
      show (if q = p then some (m, c) else dfsLookup (dfsDelete rest p) p) = none
      rw [if_neg hq]
      exact ih

lemma dfsLookup_delete_ne (fs : DirFS) (p q : String) (h : q ≠ p) :
    dfsLookup (dfsDelete fs p) q = dfsLookup fs q := by
  induction fs with
  | nil => rfl
  | cons e rest ih =>
    obtain ⟨r, m, c⟩ := e
    show dfsLookup (List.filter _ ((r, m, c) :: rest)) q = _
    rw [List.filter_cons]
    by_cases hr : r = p
    · rw [if_neg (by simp [hr])]
      show dfsLookup (dfsDelete rest p) q = _
      rw [ih]
      show _ = (if r = q then some (m, c) else dfsLookup rest q)
      rw [if_neg (by rw [hr]; exact Ne.symm h)]
    · rw [if_pos (by simp [hr])]
      show (if r = q then some (m, c) else dfsLookup (dfsDelete rest p) q) = _
      by_cases hrq : r = q
      · rw [if_pos hrq]
        show _ = (if r = q then some (m, c) else dfsLookup rest q)
        rw [if_pos hrq]
      · rw [if_neg hrq, ih]
        show _ = (if r = q then some (m, c) else dfsLookup rest q)
        rw [if_neg hrq]

lemma listHas_filter_false (l : List String) (p : String → Bool) (a : String)
    (h : p a = false) : listHas (l.filter p) a = false := by
  induction l with
  | nil => rfl
  | cons x t ih =>
    rw [List.filter_cons]
    by_cases hx : p x = true
    · rw [if_pos hx]
      show (decide (x = a) || listHas (t.filter p) a) = false
      rw [ih]
      have hxa : x ≠ a := by
        intro e
        rw [e, h] at hx
        exact Bool.noConfusion hx
      simp [hxa]
    · rw [if_neg hx]
      exact ih

/-! ## Distinctness of sibling paths and the temp-file name -/

lemma absOf_snoc_data (T : List String) (n : String) :
    (absOf (T ++ [n])).data = '/' :: joinWith '/' (T.map String.data ++ [n.data]) := by
  show '/' :: joinWith '/' ((T ++ [n]).map String.data) = _
  rw [List.map_append]
  rfl

lemma absOf_snoc_ne (T : List String) (n1 n2 : String) (hT : PlainL T)
    (h1 : '/' ∉ n1.data) (h2 : '/' ∉ n2.data) (hne : n1.data ≠ n2.data) :
    absOf (T ++ [n1]) ≠ absOf (T ++ [n2]) := by
  intro e
  have he := congrArg String.data e
  rw [absOf_snoc_data, absOf_snoc_data] at he
  have hj : joinWith '/' (T.map String.data ++ [n1.data])
      = joinWith '/' (T.map String.data ++ [n2.data]) := by
    injection he
  have hsepT : ∀ p ∈ T.map String.data, '/' ∉ p :=
    fun p hp => (plainL_map T hT p hp).2.2.2
  have hs := congrArg (splitOnChar '/') hj
  rw [splitOnChar_joinWith _ _ (by simp) (by
      intro p hp
      rcases List.mem_append.mp hp with ha | hb
      · exact hsepT p ha
      · rw [List.mem_singleton.mp hb]
        exact h1),
    splitOnChar_joinWith _ _ (by simp) (by
      intro p hp
      rcases List.mem_append.mp hp with ha | hb
      · exact hsepT p ha
      · rw [List.mem_singleton.mp hb]
        exact h2)] at hs
  have := List.append_cancel_left hs
  injection this with h3
  exact hne h3

lemma str_append_data_ne (hex s1 s2 : String) (h : s1.data ≠ s2.data) :
    (hex ++ s1).data ≠ (hex ++ s2).data := by
  rw [String.data_append, String.data_append]
  intro e
  exact h (List.append_cancel_left e)

lemma head?_append_left (a b : CL) (h : a ≠ []) : (a ++ b).head? = a.head? := by
  cases a with
  | nil => exact absurd rfl h
  | cons x t => rfl

lemma reverse_head_mem (b : CL) (hb : b ≠ []) :
    ∃ c, b.reverse.head? = some c ∧ c ∈ b := by
  cases hr : b.reverse with
  | nil =>
    exact absurd (by simpa using congrArg List.reverse hr) hb
  | cons r0 rr =>
    refine ⟨r0, rfl, ?_⟩
    have : r0 ∈ b.reverse := by rw [hr]; exact List.mem_cons_self _ _
    exact List.mem_reverse.mp this

lemma joinWith_getLast_ne_slash (cs : List CL) (h : ∀ c ∈ cs, PlainC c) (hne : cs ≠ []) :
    (joinWith '/' cs).getLast? ≠ some '/' := by
  rw [List.getLast?_eq_head?_reverse]
  rcases (List.eq_nil_or_concat cs).resolve_left hne with ⟨L, b, hcs⟩
  rw [List.concat_eq_append] at hcs
  subst hcs
  have hbp : PlainC b := h b (by simp)
  obtain ⟨c, hc1, hc2⟩ := reverse_head_mem b hbp.1
  cases hL : L with
  | nil =>
    have : joinWith '/' ([] ++ [b]) = b := rfl
    rw [this, hc1]
    intro e
    have : c = '/' := by injection e
    exact hbp.2.2.2 (this ▸ hc2)
  | cons l0 ls =>
    rw [← hL]
    have hLne : L ≠ [] := by rw [hL]; simp
    rw [joinWith_snoc '/' L b hLne]
    rw [List.reverse_append]
    have hrevb : ('/' :: b).reverse = b.reverse ++ ['/'] := by
      rw [List.reverse_cons]
    rw [hrevb, List.append_assoc, head?_append_left _ _ (by
      intro e
      exact hbp.1 (by simpa using congrArg List.reverse e))]
    rw [hc1]
    intro e
    have : c = '/' := by injection e
    exact hbp.2.2.2 (this ▸ hc2)

lemma absOf_getLast_ne_slash (T : List String) (hT : PlainL T) (hne : T ≠ []) :
    (absOf T).data.getLast? ≠ some '/' := by
  show ('/' :: joinWith '/' (T.map String.data)).getLast? ≠ some '/'
  have hjne : joinWith '/' (T.map String.data) ≠ [] :=
    joinWith_ne_nil _ (by simpa using hne) (fun z hz => (plainL_map T hT z hz).1)
  rw [List.getLast?_eq_head?_reverse, List.reverse_cons,
    head?_append_left _ _ (by simpa using hjne)]
  rw [← List.getLast?_eq_head?_reverse]
  exact joinWith_getLast_ne_slash _ (plainL_map T hT) (by simpa using hne)

lemma tmpNameOf_eq (i : AtomicInput) (T : List String) (f : String)
    (hT : PlainL T) (hf : '/' ∉ f.data) (hfp : i.filePath = absOf (T ++ [f])) :
    tmpNameOf i = absOf (T ++ [i.tmpBase]) := by
  unfold tmpNameOf
  rw [hfp, pathDir_absOf_snoc T f hT hf]
  cases hTc : T with
  | nil =>
    show (if (absOf ([] : List String)).data.getLast? = some '/'
        then absOf ([] : List String) ++ i.tmpBase
        else absOf ([] : List String) ++ "/" ++ i.tmpBase) = absOf ([] ++ [i.tmpBase])
    rw [if_pos (show (absOf ([] : List String)).data.getLast? = some '/' from rfl)]
    apply String.ext
    rw [String.data_append]
    rfl
  | cons t0 ts =>
    rw [← hTc]
    show (if (absOf T).data.getLast? = some '/'
        then absOf T ++ i.tmpBase
        else absOf T ++ "/" ++ i.tmpBase) = absOf (T ++ [i.tmpBase])
    have hTne : T ≠ [] := by rw [hTc]; simp
    rw [if_neg (absOf_getLast_ne_slash T hT hTne)]
    apply String.ext
    rw [String.data_append, String.data_append, absOf_snoc_data]
    show ('/' :: joinWith '/' (T.map String.data)) ++ ['/'] ++ i.tmpBase.data = _
    rw [joinWith_snoc '/' (T.map String.data) i.tmpBase.data (by
      rw [hTc]; simp)]
    rw [List.cons_append, List.cons_append, List.append_assoc]
    rfl

/-! ## Final helper lemmas for the claim theorems -/

lemma whiteout_basename (D : List String) (w : String) (hD : PlainL D) (hw : PlainS w) :
    (goSplitDirFile (goClean (relOf (D ++ [w])))).2 = w := by
  have hclean : goClean (relOf (D ++ [w])) = relOf (D ++ [w]) := by
    apply goClean_relOf
    · intro c hc
      rcases List.mem_append.mp hc with h1 | h2
      · exact hD c h1
      · rw [List.mem_singleton.mp h2]
        exact hw
    · simp
  rw [hclean]
  cases hDc : D with
  | nil =>
    rw [List.nil_append, relOf_single, goSplit_sepFree w hw.2.2.2]
  | cons d0 ds =>
    rw [← hDc, goSplit_relOf_snoc D w (by rw [hDc]; simp) hw.2.2.2]

lemma isWhiteout_wh (D : List String) (name : String) (hD : PlainL D)
    (hname : PlainS name) :
    isWhiteout (relOf (D ++ [".wh." ++ name])) = true := by
  rw [isWhiteout_eq, whiteout_basename D _ hD (plainS_wh name hname.2.2.2)]
  unfold strHasPre
  rw [wh_data]
  exact clStartsWith_append_self _ _

lemma sepFree_append_sfx (hex sfx : String) (hhex : PlainS hex)
    (hs : '/' ∉ sfx.data) : '/' ∉ (hex ++ sfx).data := by
  rw [String.data_append]
  intro hm
  rcases List.mem_append.mp hm with h1 | h2
  · exact hhex.2.2.2 h1
  · exact hs h2

lemma wantedPath_eq (T : List String) (hex : String) (hT : PlainL T) (hhex : PlainS hex) :
    wantedFilePathOf (absOf T) hex = absOf (T ++ [hex ++ ".wanted"]) :=
  goJoin_abs_name T _ hT (plainS_append hex ".wanted" hhex (by decide) (by decide))

lemma tmpDevicePath_eq (T : List String) (hex : String) (hT : PlainL T) (hhex : PlainS hex) :
    tmpDevicePathOf (absOf T) hex = absOf (T ++ [hex ++ "_tmp.ext4"]) :=
  goJoin_abs_name T _ hT (plainS_append hex "_tmp.ext4" hhex (by decide) (by decide))

lemma outputFilePath_eq (T : List String) (hex : String) (hT : PlainL T) (hhex : PlainS hex) :
    outputFilePathOf (absOf T) hex = absOf (T ++ [hex ++ ".ext4"]) :=
  goJoin_abs_name T _ hT (plainS_append hex ".ext4" hhex (by decide) (by decide))

lemma builder_paths_distinct (T : List String) (hex : String)
    (hT : PlainL T) (hhex : PlainS hex) :
    wantedFilePathOf (absOf T) hex ≠ tmpDevicePathOf (absOf T) hex
    ∧ outputFilePathOf (absOf T) hex ≠ tmpDevicePathOf (absOf T) hex
    ∧ outputFilePathOf (absOf T) hex ≠ wantedFilePathOf (absOf T) hex := by
  rw [wantedPath_eq T hex hT hhex, tmpDevicePath_eq T hex hT hhex,
    outputFilePath_eq T hex hT hhex]
  refine ⟨?_, ?_, ?_⟩
  · exact absOf_snoc_ne T _ _ hT (sepFree_append_sfx hex ".wanted" hhex (by decide))
      (sepFree_append_sfx hex "_tmp.ext4" hhex (by decide))
      (str_append_data_ne hex _ _ (by decide))
  · exact absOf_snoc_ne T _ _ hT (sepFree_append_sfx hex ".ext4" hhex (by decide))
      (sepFree_append_sfx hex "_tmp.ext4" hhex (by decide))
      (str_append_data_ne hex _ _ (by decide))
  · exact absOf_snoc_ne T _ _ hT (sepFree_append_sfx hex ".ext4" hhex (by decide))
      (sepFree_append_sfx hex ".wanted" hhex (by decide))
      (str_append_data_ne hex _ _ (by decide))

lemma contentAt_insert_self (fs : DirFS) (p : String) (v : Nat × String) :
    contentAt (dfsInsert fs p v) p = some v.2 := by
  unfold contentAt
  rw [dfsLookup_insert_self]
  rfl

lemma contentAt_insert_ne (fs : DirFS) (p q : String) (v : Nat × String) (h : q ≠ p) :
    contentAt (dfsInsert fs p v) q = contentAt fs q := by
  unfold contentAt
  rw [dfsLookup_insert_ne fs p q v h]

lemma contentAt_delete_ne (fs : DirFS) (p q : String) (h : q ≠ p) :
    contentAt (dfsDelete fs p) q = contentAt fs q := by
  unfold contentAt
  rw [dfsLookup_delete_ne fs p q h]

/-! ## Claim theorems -/

/-- C7 counterexample: the du-based NewDevice of src/pkg/fs/blockdevice.go
allocates du * 115 / 100 bytes with no 7 MiB clamp; at a du size of 100
bytes it allocates 115 bytes, not max(115, 7 MiB) as the claim states. -/
theorem C7_counterexample :
    blockdeviceAllocSize 100 = 115
    ∧ ¬ blockdeviceAllocSize 100 = max (Int.tdiv (100 * 115) 100) (7 * 1024 * 1024) := by
  constructor
  · decide
  · decide

/-- C7 amended: the SizeBytes-taking NewDevice (src/pkg/fs/ext4Device.go)
allocates max(SizeBytes, 7 MiB), so at least 7 MiB; the du-based
NewDevice (src/pkg/fs/blockdevice.go) allocates exactly du * 115 / 100
in truncating int64 arithmetic, and for small trees this falls below
the 7 MiB minimum, which that variant never applies. -/
theorem C7_amended :
    (∀ s : Int, ext4NewDeviceAllocSize s = max s (7 * 1024 * 1024)
      ∧ 7 * 1024 * 1024 ≤ ext4NewDeviceAllocSize s)
    ∧ (∀ d : Int, blockdeviceAllocSize d = Int.tdiv (d * 115) 100)
    ∧ (∃ d : Int, 0 ≤ d ∧ blockdeviceAllocSize d < 7 * 1024 * 1024) := by
  refine ⟨fun s => ⟨rfl, le_max_right _ _⟩, fun d => rfl, ⟨100, by decide, by decide⟩⟩

/-- C10: Unmount returns nil whenever the derived mount directory does
not exist, and after a successful Unmount a second Unmount (with any
outcome of the shelled-out commands) succeeds on the resulting state. -/
theorem C10_unmount_idempotent :
    (∀ (tempDir devicePath : String) (u r : Bool) (dirs : List String),
      listHas dirs (pathJoin2 tempDir (mountDirName devicePath)) = false →
      unmountGo tempDir devicePath u r dirs = .ok dirs)
    ∧ (∀ (tempDir devicePath : String) (u r u2 r2 : Bool) (dirs dirs2 : List String),
      unmountGo tempDir devicePath u r dirs = .ok dirs2 →
      unmountGo tempDir devicePath u2 r2 dirs2 = .ok dirs2) := by
  have habs : ∀ (tempDir devicePath : String) (u r : Bool) (dirs : List String),
      listHas dirs (pathJoin2 tempDir (mountDirName devicePath)) = false →
      unmountGo tempDir devicePath u r dirs = .ok dirs := by
    intro tempDir devicePath u r dirs h
    unfold unmountGo
    rw [if_pos (by simp [h])]
  refine ⟨habs, ?_⟩
  intro tempDir devicePath u r u2 r2 dirs dirs2 h
  by_cases hm : listHas dirs (pathJoin2 tempDir (mountDirName devicePath)) = true
  · unfold unmountGo at h
    rw [if_neg (by simp [hm])] at h
    by_cases hu : u = true
    · rw [if_neg (by simp [hu])] at h
      by_cases hr : r = true
      · rw [if_neg (by simp [hr])] at h
        have hd2 : dirs2 = dirs.filter
            (fun d => ¬ atOrUnder (pathJoin2 tempDir (mountDirName devicePath)) d) := by
          injection h with h2
          exact h2.symm
        apply habs
        rw [hd2]
        apply listHas_filter_false
        simp [atOrUnder_self]
      · rw [if_pos (by simp [hr])] at h
        exact Except.noConfusion h
    · rw [if_pos (by simp [hu])] at h
      exact Except.noConfusion h
  · have hm2 : listHas dirs (pathJoin2 tempDir (mountDirName devicePath)) = false := by
      cases h2 : listHas dirs (pathJoin2 tempDir (mountDirName devicePath))
      · rfl
      · exact absurd h2 hm
    have := habs tempDir devicePath u r dirs hm2
    rw [this] at h
    have hd2 : dirs2 = dirs := by
      injection h with h2
      exact h2.symm
    rw [hd2]
    exact habs tempDir devicePath u2 r2 dirs hm2

/-- C10 witness: a concrete mounted state for device /dev/x.ext4 is
unmounted successfully, and unmounting again succeeds. -/
theorem C10_witness :
    unmountGo "/tmp" "/dev/x.ext4" true true ["/tmp/x_mount"] = .ok []
    ∧ unmountGo "/tmp" "/dev/x.ext4" true true [] = .ok [] := by
  constructor
  · decide
  · exact C10_unmount_idempotent.2 "/tmp" "/dev/x.ext4" true true true true
      ["/tmp/x_mount"] [] (by decide)

/-- C5: WriteContainerConfig writes walkio/env with each env entry
trimmed, one per line, followed by a final WORKDIR line (default "/")
with no trailing newline, and walkio/argv with each entrypoint element
then each cmd element, trimmed, one per line with no quoting; both
files carry mode 0644. -/
theorem C5_config_writer :
    (∀ (rootfsDir : String) (config : ImageConfig),
      writeContainerConfigFiles rootfsDir config
        = [ (pathJoin2 (pathJoin2 rootfsDir "walkio") "env", 0o644,
             specLines (config.env.map trimGo
               ++ ["WORKDIR=" ++ (if config.workingDir = "" then "/" else config.workingDir)])),
            (pathJoin2 (pathJoin2 rootfsDir "walkio") "argv", 0o644,
             writeLinesGo (config.entrypoint ++ config.cmd)) ])
    ∧ (∀ xs : List String, xs ≠ [] →
        writeLinesGo xs = specLines (xs.map trimGo) ++ "\n") := by
  constructor
  · intro rootfsDir config
    unfold writeContainerConfigFiles
    rw [envContent_spec, argvContent_eq]
  · exact writeLines_spec

/-- C5 witness: the config writer evaluated on the simple hello-world
image of the spec. -/
theorem C5_config_writer_witness :
    writeContainerConfigFiles "/mnt" ⟨["/hello"], [], [], ""⟩
      = [ (pathJoin2 (pathJoin2 "/mnt" "walkio") "env", 0o644,
           specLines (([] : List String).map trimGo ++ ["WORKDIR=" ++ (if ("" : String) = "" then "/" else "")])),
          (pathJoin2 (pathJoin2 "/mnt" "walkio") "argv", 0o644,
           writeLinesGo (["/hello"] ++ [])) ]
    ∧ writeLinesGo ["/hello"] = specLines (["/hello"].map trimGo) ++ "\n" :=
  ⟨C5_config_writer.1 "/mnt" ⟨["/hello"], [], [], ""⟩,
   C5_config_writer.2 ["/hello"] (by decide)⟩

/-- C1: evaluation at the failing input.  With digest hex abc, start
timestamp 3 and a concurrent build having rewritten the wanted marker
to 5 before the guard, BuildAppDevice returns the supersede error and
does not rename, as the claim states — but the temp device file
/app/abc_tmp.ext4 is left in place, not deleted. -/
theorem C1_superseded_keeps_temp_eval :
    (buildAppDevicePublish ⟨"/app", "abc", 3, some (some "5")⟩ []).1
        = .error "newer build detected not publishing"
    ∧ outLookup (buildAppDevicePublish ⟨"/app", "abc", 3, some (some "5")⟩ []).2
        "/app/abc_tmp.ext4" = some deviceFileContent
    ∧ outLookup (buildAppDevicePublish ⟨"/app", "abc", 3, some (some "5")⟩ []).2
        "/app/abc.ext4" = none
    ∧ parseInt64 "5" = some 5 ∧ ¬ (5 : Int) ≤ 3 := by
  refine ⟨by decide, by decide, by decide, by decide, by decide⟩

/-- C2 counterexample: with digest hex abc and build timestamp 3, the
in-progress device file before publication is at /app/abc_tmp.ext4 —
there is no file at /app/abc-3.ext4, the name the claim prescribes. -/
theorem C2_counterexample :
    outLookup (buildPrePublish ⟨"/app", "abc", 3, none⟩ []) "/app/abc-3.ext4" = none
    ∧ outLookup (buildPrePublish ⟨"/app", "abc", 3, none⟩ []) "/app/abc_tmp.ext4"
        = some deviceFileContent
    ∧ tmpDevicePathOf "/app" "abc" = "/app/abc_tmp.ext4" := by
  refine ⟨by decide, by decide, by decide⟩

/-- C2 amended: the in-progress device file is created at
<output_dir>/<digest_hex>_tmp.ext4 (no timestamp in the name); before
publication the only output-directory names this build touches are
<hex>.wanted and <hex>_tmp.ext4, and the final name <hex>.ext4 is
left exactly as it was. -/
theorem C2_amended :
    ∀ (T : List String) (hex : String) (ts : Int) (itf : Option (Option String)) (fs0 : OutFS),
      PlainL T → PlainS hex →
      tmpDevicePathOf (absOf T) hex = absOf (T ++ [hex ++ "_tmp.ext4"])
      ∧ (∀ q, outLookup (buildPrePublish ⟨absOf T, hex, ts, itf⟩ fs0) q ≠ outLookup fs0 q →
          q = wantedFilePathOf (absOf T) hex ∨ q = tmpDevicePathOf (absOf T) hex)
      ∧ outLookup (buildPrePublish ⟨absOf T, hex, ts, itf⟩ fs0) (outputFilePathOf (absOf T) hex)
          = outLookup fs0 (outputFilePathOf (absOf T) hex) := by
  intro T hex ts itf fs0 hT hhex
  have hdist := builder_paths_distinct T hex hT hhex
  have hmain : ∀ q, q ≠ wantedFilePathOf (absOf T) hex → q ≠ tmpDevicePathOf (absOf T) hex →
      outLookup (buildPrePublish ⟨absOf T, hex, ts, itf⟩ fs0) q = outLookup fs0 q := by
    intro q hqw hqt
    simp only [buildPrePublish]
    cases itf with
    | none =>
      rw [outLookup_insert_ne _ _ _ _ hqt, outLookup_insert_ne _ _ _ _ hqw]
    | some c =>
      cases c with
      | none =>
        rw [outLookup_delete_ne _ _ _ hqw, outLookup_insert_ne _ _ _ _ hqt,
          outLookup_insert_ne _ _ _ _ hqw]
      | some s =>
        rw [outLookup_insert_ne _ _ _ _ hqw, outLookup_insert_ne _ _ _ _ hqt,
          outLookup_insert_ne _ _ _ _ hqw]
  refine ⟨tmpDevicePath_eq T hex hT hhex, ?_, ?_⟩
  · intro q hq
    by_contra hcon
    push_neg at hcon
    exact hq (hmain q hcon.1 hcon.2)
  · exact hmain _ hdist.2.2 hdist.2.1

/-- C2 amended witness: the amended statement applied at digest hex
abc in output directory /app with timestamp 3 and no interference. -/
theorem C2_amended_witness :
    tmpDevicePathOf (absOf ["app"]) "abc" = absOf (["app"] ++ ["abc" ++ "_tmp.ext4"])
    ∧ outLookup (buildPrePublish ⟨absOf ["app"], "abc", 3, none⟩ [])
        (outputFilePathOf (absOf ["app"]) "abc")
        = outLookup [] (outputFilePathOf (absOf ["app"]) "abc") := by
  have h := C2_amended ["app"] "abc" 3 none [] (by decide) (by decide)
  exact ⟨h.1, h.2.2⟩

/-- C8: when the wanted-marker read fails or its content does not
parse as a decimal integer, isNewstBuild treats this build as newest,
and the publication phase renames the temp device onto the final name
and succeeds. -/
theorem C8_guard_defaults_newest :
    (∀ ts : Int, isNewstBuild none ts = true)
    ∧ (∀ (s : String) (ts : Int), parseInt64 s = none → isNewstBuild (some s) ts = true)
    ∧ (∀ (T : List String) (hex : String) (ts : Int) (fs0 : OutFS) (itf : Option String),
        PlainL T → PlainS hex →
        (∀ c, itf = some c → parseInt64 c = none) →
        (buildAppDevicePublish ⟨absOf T, hex, ts, some itf⟩ fs0).1
          = .ok (outputFilePathOf (absOf T) hex)
        ∧ outLookup (buildAppDevicePublish ⟨absOf T, hex, ts, some itf⟩ fs0).2
            (outputFilePathOf (absOf T) hex) = some deviceFileContent) := by
  refine ⟨fun ts => rfl, fun s ts h => ?_, ?_⟩
  · show (match parseInt64 s with
      | none => true
      | some ts2 => decide (ts2 ≤ ts)) = true
    rw [h]
  intro T hex ts fs0 itf hT hhex hitf
  have hdist := builder_paths_distinct T hex hT hhex
  have htw : tmpDevicePathOf (absOf T) hex ≠ wantedFilePathOf (absOf T) hex :=
    Ne.symm hdist.1
  have ht : outLookup (buildPrePublish ⟨absOf T, hex, ts, some itf⟩ fs0)
      (tmpDevicePathOf (absOf T) hex) = some deviceFileContent := by
    simp only [buildPrePublish]
    cases itf with
    | none =>
      rw [outLookup_delete_ne _ _ _ htw, outLookup_insert_self]
    | some c =>
      rw [outLookup_insert_ne _ _ _ _ htw, outLookup_insert_self]
  have hguard : isNewstBuild
      (outLookup (buildPrePublish ⟨absOf T, hex, ts, some itf⟩ fs0)
        (wantedFilePathOf (absOf T) hex)) ts = true := by
    simp only [buildPrePublish]
    cases itf with
    | none =>
      rw [outLookup_delete_self]
      rfl
    | some c =>
      rw [outLookup_insert_self]
      show (match parseInt64 c with
        | none => true
        | some ts2 => decide (ts2 ≤ ts)) = true
      rw [hitf c rfl]
  simp only [buildAppDevicePublish]
  rw [if_neg (by rw [hguard]; simp), ht]
  exact ⟨rfl, outLookup_insert_self _ _ _⟩

/-- C8 witness: a deleted wanted marker (read failure) and an
unparsable marker content both let the concrete build publish. -/
theorem C8_guard_defaults_newest_witness :
    isNewstBuild none 3 = true
    ∧ isNewstBuild (some "not-a-number") 3 = true
    ∧ (buildAppDevicePublish ⟨absOf ["app"], "abc", 3, some none⟩ []).1
        = .ok (outputFilePathOf (absOf ["app"]) "abc") := by
  refine ⟨C8_guard_defaults_newest.1 3,
    C8_guard_defaults_newest.2.1 "not-a-number" 3 (by decide), ?_⟩
  exact (C8_guard_defaults_newest.2.2 ["app"] "abc" 3 [] none (by decide) (by decide)
    (fun c hc => Option.noConfusion hc)).1

/-- C3 counterexample: the whiteout entry ../../etc/.wh.passwd in a
layer applied to rootfs /tmp/rootfs is processed without error and
deletes /etc/passwd, a path lexically outside the rootfs. -/
theorem C3_counterexample :
    isWhiteout "../../etc/.wh.passwd" = true
    ∧ processEntry "/tmp/rootfs" ⟨"../../etc/.wh.passwd", TarType.reg, 0o644, "", ""⟩
        [("/etc/passwd", FNode.file 0o644 "secret"), ("/tmp/rootfs", FNode.dir 0o755)]
      = .ok [("/tmp/rootfs", FNode.dir 0o755)]
    ∧ withinDir "/tmp/rootfs" "/etc/passwd" = false := by
  refine ⟨by decide, by decide, by decide⟩

/-- C3 amended: for non-whiteout entries the flattener rejects with
the path-traversal error exactly those entries whose joined cleaned
path does not carry the target directory as a string prefix (a test
that also admits sibling paths sharing that prefix), while whiteout
entries are applied with no containment check at all. -/
theorem C3_amended :
    (∀ (tD : String) (hdr : TarHeader) (fs : FS), isWhiteout hdr.name = false →
      (extractTarEntryFS tD hdr fs = .error (travMsg hdr.name)
        ↔ strHasPre tD (goJoinList [tD, goClean hdr.name]) = false))
    ∧ (∀ (tD : String) (hdr : TarHeader) (fs : FS), isWhiteout hdr.name = true →
      processEntry tD hdr fs = .ok (handleWhiteoutFS tD hdr.name fs)) :=
  ⟨fun tD hdr fs _ => extract_err_iff tD hdr fs,
   fun tD hdr fs h => processEntry_whiteout tD hdr fs h⟩

/-- C3 amended witness: a sibling-prefix entry ../rootfs2/evil passes
the guard (the iff holds with both sides false), and a concrete
whiteout entry is applied unchecked. -/
theorem C3_amended_witness :
    (extractTarEntryFS "/tmp/rootfs" ⟨"../rootfs2/evil", TarType.reg, 0o644, "", ""⟩ []
        = .error (travMsg "../rootfs2/evil")
      ↔ strHasPre "/tmp/rootfs"
          (goJoinList ["/tmp/rootfs", goClean "../rootfs2/evil"]) = false)
    ∧ processEntry "/tmp/rootfs" ⟨"a/.wh.b", TarType.reg, 0o644, "", ""⟩ []
        = .ok (handleWhiteoutFS "/tmp/rootfs" "a/.wh.b" []) :=
  ⟨C3_amended.1 "/tmp/rootfs" ⟨"../rootfs2/evil", TarType.reg, 0o644, "", ""⟩ [] (by decide),
   C3_amended.2 "/tmp/rootfs" ⟨"a/.wh.b", TarType.reg, 0o644, "", ""⟩ [] (by decide)⟩

/-- C4: a regular whiteout with basename .wh.<name> in layer directory
D recursively removes <target_dir>/D/<name>; an opaque whiteout with
basename .wh..wh..opaque in directory D removes all contents of
<target_dir>/D while D itself remains as an existing (empty)
directory; entries whose basename does not begin with .wh. are never
treated as whiteouts. -/
theorem C4_whiteout_semantics :
    (∀ (T D : List String) (name : String) (fs : FS),
      PlainL T → PlainL D → PlainS name → name ≠ ".wh..opaque" →
      isWhiteout (relOf (D ++ [".wh." ++ name])) = true
      ∧ handleWhiteoutFS (absOf T) (relOf (D ++ [".wh." ++ name])) fs
          = removeAllFS (absOf (T ++ D ++ [name])) fs)
    ∧ (∀ (T D : List String) (fs : FS), PlainL T → PlainL D →
      fsLookup (handleWhiteoutFS (absOf T) (relOf (D ++ [".wh..wh..opaque"])) fs)
          (absOf (T ++ D)) = some (.dir 0o755)
      ∧ (∀ q, isStrictlyUnder (absOf (T ++ D)) q = true →
          fsLookup (handleWhiteoutFS (absOf T) (relOf (D ++ [".wh..wh..opaque"])) fs) q = none))
    ∧ (∀ (tD : String) (hdr : TarHeader) (fs : FS),
        strHasPre ".wh." (goSplitDirFile (goClean hdr.name)).2 = false →
        isWhiteout hdr.name = false
        ∧ processEntry tD hdr fs = extractTarEntryFS tD hdr fs) := by
  refine ⟨?_, ?_, ?_⟩
  · intro T D name fs hT hD hname hnotop
    exact ⟨isWhiteout_wh D name hD hname,
      handleWhiteout_regular T D name fs hT hD hname hnotop⟩
  · intro T D fs hT hD
    rw [hwOpaqueCase T D fs hT hD]
    exact opaque_after (absOf (T ++ D)) fs (absOf_data_ne_nil _)
  · intro tD hdr fs h
    have hw : isWhiteout hdr.name = false := by
      rw [isWhiteout_eq]
      exact h
    exact ⟨hw, processEntry_not_whiteout tD hdr fs hw⟩

/-- C4 witness: the three parts applied to concrete entries — the
regular whiteout dir/.wh.file.txt, the opaque whiteout
dir/.wh..wh..opaque under rootfs /tmp/rootfs, and the non-whiteout
entry dir/file.txt. -/
theorem C4_whiteout_semantics_witness :
    (isWhiteout (relOf (["dir"] ++ [".wh." ++ "file.txt"])) = true
      ∧ handleWhiteoutFS (absOf ["tmp", "rootfs"]) (relOf (["dir"] ++ [".wh." ++ "file.txt"]))
          [(absOf ["tmp", "rootfs", "dir", "file.txt"], FNode.file 0o644 "bye")]
        = removeAllFS (absOf (["tmp", "rootfs"] ++ ["dir"] ++ ["file.txt"]))
          [(absOf ["tmp", "rootfs", "dir", "file.txt"], FNode.file 0o644 "bye")])
    ∧ fsLookup (handleWhiteoutFS (absOf ["tmp", "rootfs"])
          (relOf (["dir"] ++ [".wh..wh..opaque"])) []) (absOf (["tmp", "rootfs"] ++ ["dir"]))
        = some (.dir 0o755)
    ∧ isWhiteout "dir/file.txt" = false :=
  ⟨C4_whiteout_semantics.1 ["tmp", "rootfs"] ["dir"] "file.txt" _
      (by decide) (by decide) (by decide) (by decide),
   (C4_whiteout_semantics.2.1 ["tmp", "rootfs"] ["dir"] [] (by decide) (by decide)).1,
   (C4_whiteout_semantics.2.2 "/tmp/rootfs" ⟨"dir/file.txt", TarType.reg, 0o644, "", ""⟩ []
      (by decide)).1⟩

/-- C9: after an opaque whiteout for directory D, <target_dir>/D
exists, is empty, and has mode 0755 regardless of its prior mode; the
flattener removes the directory itself with RemoveAll and recreates
it with MkdirAll mode 0755 rather than removing only its contents. -/
theorem C9_opaque_recreate :
    ∀ (T D : List String) (fs : FS), PlainL T → PlainL D →
      handleWhiteoutFS (absOf T) (relOf (D ++ [".wh..wh..opaque"])) fs
        = mkdirAllFS (absOf (T ++ D)) 0o755 (removeAllFS (absOf (T ++ D)) fs)
      ∧ fsLookup (handleWhiteoutFS (absOf T) (relOf (D ++ [".wh..wh..opaque"])) fs)
          (absOf (T ++ D)) = some (.dir 0o755)
      ∧ (∀ q, isStrictlyUnder (absOf (T ++ D)) q = true →
          fsLookup (handleWhiteoutFS (absOf T) (relOf (D ++ [".wh..wh..opaque"])) fs) q = none) := by
  intro T D fs hT hD
  have heq := hwOpaqueCase T D fs hT hD
  have hafter := opaque_after (absOf (T ++ D)) fs (absOf_data_ne_nil _)
  rw [heq]
  exact ⟨rfl, hafter.1, hafter.2⟩

/-- C9 witness: an opaque whiteout for dir under /tmp/rootfs applied
to a state where dir had mode 0700 and held a file; afterwards dir
exists empty with mode 0755. -/
theorem C9_opaque_recreate_witness :
    handleWhiteoutFS (absOf ["tmp", "rootfs"]) (relOf (["dir"] ++ [".wh..wh..opaque"]))
        [(absOf ["tmp", "rootfs", "dir"], FNode.dir 0o700),
         (absOf ["tmp", "rootfs", "dir", "a"], FNode.file 0o644 "x")]
      = mkdirAllFS (absOf (["tmp", "rootfs"] ++ ["dir"])) 0o755
          (removeAllFS (absOf (["tmp", "rootfs"] ++ ["dir"]))
            [(absOf ["tmp", "rootfs", "dir"], FNode.dir 0o700),
             (absOf ["tmp", "rootfs", "dir", "a"], FNode.file 0o644 "x")])
    ∧ fsLookup (handleWhiteoutFS (absOf ["tmp", "rootfs"]) (relOf (["dir"] ++ [".wh..wh..opaque"]))
        [(absOf ["tmp", "rootfs", "dir"], FNode.dir 0o700),
         (absOf ["tmp", "rootfs", "dir", "a"], FNode.file 0o644 "x")])
        (absOf (["tmp", "rootfs"] ++ ["dir"])) = some (.dir 0o755)
    ∧ fsLookup (handleWhiteoutFS (absOf ["tmp", "rootfs"]) (relOf (["dir"] ++ [".wh..wh..opaque"]))
        [(absOf ["tmp", "rootfs", "dir"], FNode.dir 0o700),
         (absOf ["tmp", "rootfs", "dir", "a"], FNode.file 0o644 "x")])
        (absOf ["tmp", "rootfs", "dir", "a"]) = none := by
  have h := C9_opaque_recreate ["tmp", "rootfs"] ["dir"]
    [(absOf ["tmp", "rootfs", "dir"], FNode.dir 0o700),
     (absOf ["tmp", "rootfs", "dir", "a"], FNode.file 0o644 "x")] (by decide) (by decide)
  exact ⟨h.1, h.2.1, h.2.2 (absOf ["tmp", "rootfs", "dir", "a"]) (by decide)⟩

/-- C6: WriteFileAtomic creates its temp file in the same directory as
the target; on the failure-free run it performs create, chmod, write,
sync, close, rename, dir-open and dir-sync in that order and leaves
the target holding exactly the data with the requested mode and no
temp file; on any failing run the temp file is gone from the final
state; and in every intermediate state the target holds either its
original content or exactly the new data, never anything partial. -/
theorem C6_atomic_write :
    ∀ (i : AtomicInput) (fs0 : DirFS) (T : List String) (f : String),
      PlainL T → '/' ∉ f.data → '/' ∉ i.tmpBase.data →
      i.filePath = absOf (T ++ [f]) →
      dfsLookup fs0 (tmpNameOf i) = none →
      tmpNameOf i ≠ i.filePath →
      pathDir (tmpNameOf i) = pathDir i.filePath
      ∧ (i.failAt = none →
          (writeFileAtomicRun i fs0).1 = .ok ()
          ∧ (writeFileAtomicRun i fs0).2.2.2
              = ["createtemp", "chmod", "write", "sync", "close", "rename", "opendir", "syncdir"]
          ∧ contentAt (writeFileAtomicRun i fs0).2.1 i.filePath = some i.data
          ∧ modeAt (writeFileAtomicRun i fs0).2.1 i.filePath = some i.perm
          ∧ dfsLookup (writeFileAtomicRun i fs0).2.1 (tmpNameOf i) = none)
      ∧ (∀ e, (writeFileAtomicRun i fs0).1 = .error e →
          dfsLookup (writeFileAtomicRun i fs0).2.1 (tmpNameOf i) = none)
      ∧ (∀ st ∈ (writeFileAtomicRun i fs0).2.2.1,
          contentAt st i.filePath = contentAt fs0 i.filePath
          ∨ contentAt st i.filePath = some i.data) := by
  intro i fs0 T f hT hf hb hfp h0 hne
  have hnePath : i.filePath ≠ tmpNameOf i := Ne.symm hne
  refine ⟨?_, ?_, ?_, ?_⟩
  · rw [tmpNameOf_eq i T f hT hf hfp, hfp, pathDir_absOf_snoc T f hT hf,
      pathDir_absOf_snoc T i.tmpBase hT hb]
  · intro hnone
    simp only [writeFileAtomicRun, hnone]
    refine ⟨trivial, trivial, ?_, ?_, ?_⟩
    · rw [contentAt_insert_self]
    · unfold modeAt
      rw [dfsLookup_insert_self]
      rfl
    · rw [dfsLookup_insert_ne _ _ _ _ hne, dfsLookup_delete_self]
  · intro e he
    cases hfa : i.failAt with
    | none =>
      simp only [writeFileAtomicRun, hfa] at he
      exact Except.noConfusion he
    | some fl =>
      cases fl
      · simp only [writeFileAtomicRun, hfa]
        exact h0
      · simp only [writeFileAtomicRun, hfa]
        rw [dfsLookup_delete_self]
      · simp only [writeFileAtomicRun, hfa]
        rw [dfsLookup_delete_self]
      · simp only [writeFileAtomicRun, hfa]
        rw [dfsLookup_delete_self]
      · simp only [writeFileAtomicRun, hfa]
        rw [dfsLookup_delete_self]
      · simp only [writeFileAtomicRun, hfa]
        rw [dfsLookup_delete_self]
      · simp only [writeFileAtomicRun, hfa]
        rw [dfsLookup_insert_ne _ _ _ _ hne, dfsLookup_delete_self]
      · simp only [writeFileAtomicRun, hfa]
        rw [dfsLookup_insert_ne _ _ _ _ hne, dfsLookup_delete_self]
  · intro st hst
    have hc1 : contentAt (dfsInsert fs0 (tmpNameOf i) (0o600, "")) i.filePath
        = contentAt fs0 i.filePath := contentAt_insert_ne _ _ _ _ hnePath
    have hc2 : ∀ v, contentAt (dfsInsert (dfsInsert fs0 (tmpNameOf i) (0o600, ""))
        (tmpNameOf i) v) i.filePath = contentAt fs0 i.filePath := by
      intro v
      rw [contentAt_insert_ne _ _ _ _ hnePath, hc1]
    have hc3 : ∀ v w, contentAt (dfsInsert (dfsInsert (dfsInsert fs0 (tmpNameOf i) (0o600, ""))
        (tmpNameOf i) v) (tmpNameOf i) w) i.filePath = contentAt fs0 i.filePath := by
      intro v w
      rw [contentAt_insert_ne _ _ _ _ hnePath, hc2]
    have hdel : ∀ fs2 : DirFS, contentAt fs2 i.filePath = contentAt fs0 i.filePath →
        contentAt (dfsDelete fs2 (tmpNameOf i)) i.filePath = contentAt fs0 i.filePath := by
      intro fs2 h2
      rw [contentAt_delete_ne _ _ _ hnePath, h2]
    have hfin : ∀ fs2 : DirFS, contentAt (dfsInsert fs2 i.filePath (i.perm, i.data)) i.filePath
        = some i.data := by
      intro fs2
      rw [contentAt_insert_self]
    cases hfa : i.failAt with
    | none =>
      simp only [writeFileAtomicRun, hfa] at hst
      simp only [List.mem_cons, List.not_mem_nil, or_false] at hst
      rcases hst with rfl | rfl | rfl | rfl | rfl
      · exact Or.inl rfl
      · exact Or.inl hc1
      · exact Or.inl (hc2 _)
      · exact Or.inl (hc3 _ _)
      · exact Or.inr (hfin _)
    | some fl =>
      cases fl <;> simp only [writeFileAtomicRun, hfa] at hst <;>
        simp only [List.mem_cons, List.not_mem_nil, or_false] at hst
      · rcases hst with rfl
        exact Or.inl rfl
      · rcases hst with rfl | rfl | rfl
        · exact Or.inl rfl
        · exact Or.inl hc1
        · exact Or.inl (hdel _ hc1)
      · rcases hst with rfl | rfl | rfl | rfl
        · exact Or.inl rfl
        · exact Or.inl hc1
        · exact Or.inl (hc2 _)
        · exact Or.inl (hdel _ (hc2 _))
      · rcases hst with rfl | rfl | rfl | rfl | rfl
        · exact Or.inl rfl
        · exact Or.inl hc1
        · exact Or.inl (hc2 _)
        · exact Or.inl (hc3 _ _)
        · exact Or.inl (hdel _ (hc3 _ _))
      · rcases hst with rfl | rfl | rfl | rfl | rfl
        · exact Or.inl rfl
        · exact Or.inl hc1
        · exact Or.inl (hc2 _)
        · exact Or.inl (hc3 _ _)
        · exact Or.inl (hdel _ (hc3 _ _))
      · rcases hst with rfl | rfl | rfl | rfl | rfl
        · exact Or.inl rfl
        · exact Or.inl hc1
        · exact Or.inl (hc2 _)
        · exact Or.inl (hc3 _ _)
        · exact Or.inl (hdel _ (hc3 _ _))
      · rcases hst with rfl | rfl | rfl | rfl | rfl
        · exact Or.inl rfl
        · exact Or.inl hc1
        · exact Or.inl (hc2 _)
        · exact Or.inl (hc3 _ _)
        · exact Or.inr (hfin _)
      · rcases hst with rfl | rfl | rfl | rfl | rfl
        · exact Or.inl rfl
        · exact Or.inl hc1
        · exact Or.inl (hc2 _)
        · exact Or.inl (hc3 _ _)
        · exact Or.inr (hfin _)

/-- C6 witness: a failure-free atomic write of data to /app/abc.wanted
with temp basename 12345.tmp, started from an empty directory. -/
theorem C6_atomic_write_witness :
    pathDir (tmpNameOf ⟨absOf (["app"] ++ ["abc.wanted"]), "3", 0o644, "12345.tmp", none⟩)
      = pathDir (absOf (["app"] ++ ["abc.wanted"]))
    ∧ contentAt (writeFileAtomicRun
        ⟨absOf (["app"] ++ ["abc.wanted"]), "3", 0o644, "12345.tmp", none⟩ []).2.1
        (absOf (["app"] ++ ["abc.wanted"])) = some "3" := by
  have h := C6_atomic_write ⟨absOf (["app"] ++ ["abc.wanted"]), "3", 0o644, "12345.tmp", none⟩
    [] ["app"] "abc.wanted" (by decide) (by decide) (by decide) rfl (by decide) (by decide)
  exact ⟨h.1, (h.2.1 rfl).2.2.1⟩
